import Mathlib

/-!
Verification of the momentum engine (src/momentum_engine.py).

The development shallowly embeds the Python source:

* Python `dict` objects become association lists with Python's update
  semantics (updating an existing key keeps its position, a new key is
  appended), so insertion order is modelled faithfully.
* Text lines become `List Char`; `str.strip`, `str.split(",")` and
  `str.lower` are re-implemented character by character (for the ASCII
  fragment the data uses).
* `float(...)` becomes an abstract parameter `parse : Line → Option ℚ`
  (rationals idealize Python floats); theorems are proved for every such
  parser.  `pyFloat` below is a concrete instance modelling `float` on
  plain decimal literals, used to evaluate concrete examples.
* `list.sort(key=...)` (a stable sort by a comparison key) becomes
  `List.mergeSort` with the boolean `le` induced by Python's tuple
  comparison; `sorted(...)` likewise.
* The only I/O that matters to the claims — the existence check on the
  raw input file — becomes an `Option` argument (`none` = file missing)
  and an `Except` result; the written clean file is the `ok` payload.
-/

/-! ### Python dictionaries as association lists -/

/-- Lookup in a Python dict modelled as an association list
(first matching key; keys are unique by construction). -/
def dGet {α β : Type} [DecidableEq α] : List (α × β) → α → Option β
  | [], _ => none
  | (k0, v0) :: t, k => if k0 = k then some v0 else dGet t k

/-- `d.get(k, dflt)`. -/
def dGetD {α β : Type} [DecidableEq α] (l : List (α × β)) (k : α) (d : β) : β :=
  (dGet l k).getD d

/-- `d[k] = v`: replace in place if the key is present, else append
(Python dicts preserve insertion order and keep the position of an
updated key). -/
def dSet {α β : Type} [DecidableEq α] : List (α × β) → α → β → List (α × β)
  | [], k, v => [(k, v)]
  | (k0, v0) :: t, k, v => if k0 = k then (k, v) :: t else (k0, v0) :: dSet t k v

/-- `d.keys()` in insertion order. -/
def dKeys {α β : Type} (l : List (α × β)) : List α := l.map Prod.fst

/-! ### Characters and Python string primitives -/

/-- One raw text line (Python `str`), as its list of characters. -/
abbrev Line := List Char

/-- Whitespace stripped by Python `str.strip()` (ASCII fragment:
space and `\t\n\v\f\r`). -/
def isPySpace (c : Char) : Bool := c.toNat = 32 || (9 ≤ c.toNat && c.toNat ≤ 13)

/-- Python `str.strip()`. -/
def pyStrip (s : Line) : Line :=
  ((s.dropWhile isPySpace).reverse.dropWhile isPySpace).reverse

/-- Worker for `pySplitOn`: `cur` holds the current field reversed. -/
def pySplitGo (cur : Line) : Line → List Line
  | [] => [cur.reverse]
  | c :: rest => if c = ',' then cur.reverse :: pySplitGo [] rest else pySplitGo (c :: cur) rest

/-- Python `str.split(",")` (on a nonempty string this never returns `[]`,
and empty fields are kept, as in Python). -/
def pySplitOn (s : Line) : List Line := pySplitGo [] s

/-- Python `str.lower()` on one character (ASCII fragment). -/
def pyLowerChar (c : Char) : Char :=
  if 65 ≤ c.toNat && c.toNat ≤ 90 then Char.ofNat (c.toNat + 32) else c

/-- Python `str.lower()` (ASCII fragment). -/
def pyLower (s : Line) : Line := s.map pyLowerChar

/-- Strict lexicographic comparison of char lists by code point —
Python's `str.__lt__`. -/
def clLtB : Line → Line → Bool
  | [], [] => false
  | [], _ :: _ => true
  | _ :: _, [] => false
  | a :: as, b :: bs =>
    if a.toNat < b.toNat then true
    else if b.toNat < a.toNat then false
    else clLtB as bs

/-- Decimal digit test. -/
def isDigitB (c : Char) : Bool := 48 ≤ c.toNat && c.toNat ≤ 57

/-- Numeric value of a digit string. -/
def digitsVal (s : Line) : Nat := s.foldl (fun n c => n * 10 + (c.toNat - 48)) 0

/-- Unsigned part of `pyFloat`: `digits`, `digits.`, `digits.digits` or
`.digits`. -/
def pyFloatCore (s : Line) : Option ℚ :=
  let ip := s.takeWhile isDigitB
  match s.dropWhile isDigitB with
  | [] => if ip = [] then none else some (digitsVal ip : ℚ)
  | '.' :: fp =>
    if fp.all isDigitB ∧ (ip ≠ [] ∨ fp ≠ []) then
      some ((digitsVal ip : ℚ) + (digitsVal fp : ℚ) / (10 : ℚ) ^ fp.length)
    else none
  | _ => none

/-- Model of Python `float(...)` restricted to plain decimal literals
`[sign] digits [. digits]` (the only forms the concrete examples use);
other accepted forms (exponents, `inf`, `nan`) are outside the fragment
exercised here.  Used to instantiate the abstract `parse` parameter. -/
def pyFloat : Line → Option ℚ
  | '-' :: rest => (pyFloatCore rest).map Neg.neg
  | '+' :: rest => pyFloatCore rest
  | s => pyFloatCore s

/-! ### The cleaning pass (`clean_and_save_prices`, lines 18-75)

The loop body (lines 32-56) is split into a pure classification of one
line followed by the state update it performs; both follow the source
exactly. -/

/-- What the loop body does with one raw line (lines 33-52):
skip blank lines; reject lines with fewer than 3 comma-separated
fields; skip a header whose first two stripped fields lower to
`date`/`ticker`; reject unparsable or non-positive prices; otherwise
yield the stripped `(date, ticker)` key and the parsed price. -/
inductive LineOutcome where
  | blank : LineOutcome
  | malformed (stripped : Line) : LineOutcome
  | header : LineOutcome
  | badPrice : LineOutcome
  | valid (dateStr tickerStr : Line) (price : ℚ) : LineOutcome
  deriving DecidableEq

/-- Header field constant `"date"`. -/
def hdrDate : Line := ['d', 'a', 't', 'e']

/-- Header field constant `"ticker"`. -/
def hdrTicker : Line := ['t', 'i', 'c', 'k', 'e', 'r']

/-- The stripped `i`-th field of a split line (`parts[i].strip()`;
the code only reads fields 0-2, which exist whenever it does so). -/
def fieldAt (parts : List Line) (i : Nat) : Line := pyStrip (parts.getD i [])

/-- Classify one line exactly as the loop body (lines 33-52) does. -/
def classifyLine (parse : Line → Option ℚ) (line : Line) : LineOutcome :=
  let s := pyStrip line
  if s = [] then .blank
  else
    let parts := pySplitOn s
    if parts.length < 3 then .malformed s
    else if pyLower (fieldAt parts 0) = hdrDate ∧ pyLower (fieldAt parts 1) = hdrTicker then
      .header
    else
      match parse (fieldAt parts 2) with
      | none => .badPrice
      | some p => if p ≤ 0 then .badPrice else .valid (fieldAt parts 0) (fieldAt parts 1) p

/-- One audit-log message (the human-readable f-strings of lines 39,
69-74, kept structured: each constructor is one message shape with the
numbers it interpolates). -/
inductive AuditEntry where
  | skippedMalformed (snippet : Line) : AuditEntry
  | readRows (n : Nat) : AuditEntry
  | removedInvalid (n : Nat) : AuditEntry
  | resolvedDuplicates (pairs dropped : Nat) : AuditEntry
  | writtenRows (n : Nat) : AuditEntry
  deriving DecidableEq

/-- The loop state of `clean_and_save_prices` (lines 26-31): the two
counters, the `duplicate_keys` and `last_seen` dicts, and the log. -/
structure CleanState where
  rowsRead : Nat
  invalid : Nat
  dupKeys : List ((Line × Line) × Nat)
  lastSeen : List ((Line × Line) × ℚ)
  auditLog : List AuditEntry
  deriving DecidableEq

/-- Initial loop state (lines 26-31). -/
def initState : CleanState := ⟨0, 0, [], [], []⟩

/-- One iteration of the loop over raw lines (lines 32-56). -/
def stepLine (parse : Line → Option ℚ) (st : CleanState) (line : Line) : CleanState :=
  match classifyLine parse line with
  | .blank => st
  | .header => st
  | .malformed s =>
    { st with invalid := st.invalid + 1,
              auditLog := st.auditLog ++ [.skippedMalformed (s.take 80)] }
  | .badPrice => { st with rowsRead := st.rowsRead + 1, invalid := st.invalid + 1 }
  | .valid d t p =>
    { st with
        rowsRead := st.rowsRead + 1,
        dupKeys :=
          if (dGet st.lastSeen (d, t)).isSome then
            dSet st.dupKeys (d, t) (dGetD st.dupKeys (d, t) 1 + 1)
          else st.dupKeys,
        lastSeen := dSet st.lastSeen (d, t) p }

/-- The whole loop (lines 32-56). -/
def runClean (parse : Line → Option ℚ) (lines : List Line) : CleanState :=
  lines.foldl (stepLine parse) initState

/-- `num_duplicate_pairs = len(duplicate_keys)` (line 58). -/
def numDuplicatePairs (st : CleanState) : Nat := st.dupKeys.length

/-- `total_duplicate_occurrences = sum(duplicate_keys.values())` (line 59). -/
def totalDuplicateOccurrences (st : CleanState) : Nat := (st.dupKeys.map Prod.snd).sum

/-- `duplicate_rows_dropped` (line 60). -/
def duplicateRowsDropped (st : CleanState) : Nat :=
  totalDuplicateOccurrences st - numDuplicatePairs st

/-- Python tuple comparison `(d1, t1) < (d2, t2)` used by
`sorted(last_seen.keys())` (line 65). -/
def keyLtB (a b : Line × Line) : Bool :=
  if a.1 = b.1 then clLtB a.2 b.2 else clLtB a.1 b.1

/-- Non-strict version driving the stable sort. -/
def keyLeB (a b : Line × Line) : Bool := ! keyLtB b a

/-- The rows written to the clean file (lines 65-66): keys sorted
ascending, each with its surviving price. -/
def canonicalTable (st : CleanState) : List ((Line × Line) × ℚ) :=
  ((dKeys st.lastSeen).mergeSort keyLeB).map (fun k => (k, dGetD st.lastSeen k 0))

/-- `rows_written = len(last_seen)` (line 68). -/
def rowsWritten (st : CleanState) : Nat := st.lastSeen.length

/-- The final audit log (lines 69-74): the malformed-line messages
accumulated during the loop, then `Read N`, then `Removed N` only when
nonzero, then `Resolved P ... (D dropped)` only when `D` is nonzero,
then `Written M`. -/
def finalAuditLog (st : CleanState) : List AuditEntry :=
  st.auditLog ++ [.readRows st.rowsRead]
    ++ (if st.invalid ≠ 0 then [.removedInvalid st.invalid] else [])
    ++ (if duplicateRowsDropped st ≠ 0 then
          [.resolvedDuplicates (numDuplicatePairs st) (duplicateRowsDropped st)]
        else [])
    ++ [.writtenRows (rowsWritten st)]

/-- Message of the `FileNotFoundError` (line 24). -/
def fileNotFoundMsg : Line := "Input file not found: ".data

/-- `clean_and_save_prices` (lines 18-75).  The raw file is `none` when
missing at `rawPath` (the existence check of line 23); on success the
result carries the written clean table, `rows_written` and the log. -/
def cleanAndSavePrices (rawPath : Line) (rawFile : Option (List Line))
    (parse : Line → Option ℚ) :
    Except Line (List ((Line × Line) × ℚ) × Nat × List AuditEntry) :=
  match rawFile with
  | none => .error (fileNotFoundMsg ++ rawPath)
  | some lines =>
    let st := runClean parse lines
    .ok (canonicalTable st, rowsWritten st, finalAuditLog st)

/-! ### Loading and the trading calendar (lines 78-107) -/

/-- One row of the loaded clean table: `(date, ticker, price)`. -/
abbrev Row := Line × Line × ℚ

/-- One iteration of the loop of `get_trading_dates_ordered`
(lines 96-101): the pair is the `seen` set (as a list) and `out`. -/
def gtdoStep (p : List Line × List Line) (r : Row) : List Line × List Line :=
  if r.1 ∈ p.1 then p else (r.1 :: p.1, p.2 ++ [r.1])

/-- `get_trading_dates_ordered` (lines 94-102): unique trading dates in
order of first appearance. -/
def get_trading_dates_ordered (rows : List Row) : List Line :=
  (rows.foldl gtdoStep ([], [])).2

/-- `build_date_to_index` (lines 105-107): the dict
`{d: i for i, d in enumerate(dates)}`. -/
def build_date_to_index (dates : List Line) : List (Line × Nat) :=
  dates.enum.foldl (fun m p => dSet m p.2 p.1) []

/-! ### The momentum ranking (`compute_top5_momentum_for_date`, lines 110-138) -/

/-- The `by_ticker` grouping (lines 124-126): a `defaultdict(dict)`
mapping ticker to its date-to-price dict. -/
def buildByTicker (rows : List Row) : List (Line × List (Line × ℚ)) :=
  rows.foldl (fun bt r => dSet bt r.2.1 (dSet (dGetD bt r.2.1 []) r.1 r.2.2)) []

/-- The `momentums` list (lines 128-135): for each ticker of `by_ticker`
in insertion order, keep it when both prices exist and the reference
price is positive, with `momentum = p_today / p_20 - 1`. -/
def momentumCandidates (rows : List Row) (targetDate refDate : Line) : List (Line × ℚ) :=
  (buildByTicker rows).filterMap (fun e =>
    match dGet e.2 targetDate, dGet e.2 refDate with
    | some pToday, some pRef =>
      if pRef ≤ 0 then none else some (e.1, pToday / pRef - 1)
    | _, _ => none)

/-- Python tuple comparison on the sort key `(-momentum, ticker)`
(line 137). -/
def momLtB (a b : Line × ℚ) : Bool :=
  if a.2 = b.2 then clLtB a.1 b.1 else decide (b.2 < a.2)

/-- Non-strict version driving the stable `list.sort` (line 137). -/
def momLeB (a b : Line × ℚ) : Bool := ! momLtB b a

/-- `compute_top5_momentum_for_date` (lines 110-138).  The Python
default `window=20` is passed explicitly.  Returns `none` (Python
`None`) when the date is unknown, `some []` when there is insufficient
history, else the top five `(ticker, momentum)` pairs. -/
def compute_top5_momentum_for_date (rows : List Row) (targetDate : Line)
    (dates : List Line) (dateToIndex : List (Line × Nat)) (window : Nat) :
    Option (List (Line × ℚ)) :=
  match dGet dateToIndex targetDate with
  | none => none
  | some idx =>
    if idx < window then some []
    else
      let refDate := (dates[idx - window]?).getD []
      some (((momentumCandidates rows targetDate refDate).mergeSort momLeB).take 5)

/-! ### Spec-side definitions

These re-state, in the spec's words, the quantities the claims compare
against the code; each is defined independently of the loop state. -/

/-- The `(date, ticker)` key of a line that survives parsing, if any. -/
def validKey (parse : Line → Option ℚ) (line : Line) : Option (Line × Line) :=
  match classifyLine parse line with
  | .valid d t _ => some (d, t)
  | _ => none

/-- Number of rows whose price field parses to a positive number and
that carry the key `k` ("duplicate occurrences" count of the spec). -/
def validOccs (parse : Line → Option ℚ) (lines : List Line) (k : Line × Line) : Nat :=
  lines.countP (fun line => validKey parse line = some k)

/-- The price of the last row (in read order) that survives parsing
with key `k` — the spec's last-write-wins value. -/
def lastValidPrice (parse : Line → Option ℚ) (lines : List Line) (k : Line × Line) :
    Option ℚ :=
  lines.foldl (fun acc line =>
    match classifyLine parse line with
    | .valid d t p => if (d, t) = k then some p else acc
    | _ => acc) none

/-- The distinct keys that occur in two or more surviving rows. -/
def specDuplicatedKeys (parse : Line → Option ℚ) (lines : List Line) :
    List (Line × Line) :=
  ((lines.filterMap (validKey parse)).dedup).filter
    (fun k => 2 ≤ validOccs parse lines k)

/-- Total surviving occurrences across the duplicated keys. -/
def specTotalDupOccs (parse : Line → Option ℚ) (lines : List Line) : Nat :=
  ((specDuplicatedKeys parse lines).map (validOccs parse lines)).sum

/-- A stripped line whose first two fields lower to `date`/`ticker`
(however many fields it has) — the header shape of the claims. -/
def isHeaderFields (s : Line) : Bool :=
  decide (pyLower (fieldAt (pySplitOn s) 0) = hdrDate ∧
          pyLower (fieldAt (pySplitOn s) 1) = hdrTicker)

/-- Spec predicate: the lines the code counts as read — non-blank,
at least 3 fields, not a header. -/
def specCountsAsRead (line : Line) : Bool :=
  let s := pyStrip line
  !(decide (s = [])) && decide (3 ≤ (pySplitOn s).length) && !(isHeaderFields s)

/-- Claim C6 predicate as stated: every non-blank, non-header line,
including those with fewer than 3 fields. -/
def claimCountsAsRead (line : Line) : Bool :=
  let s := pyStrip line
  !(decide (s = [])) && !(isHeaderFields s)

/-- Spec predicate: lines absorbed into the shared invalid counter —
malformed column count, or a price that is missing, unparsable or
non-positive. -/
def specCountsAsInvalid (parse : Line → Option ℚ) (line : Line) : Bool :=
  match classifyLine parse line with
  | .malformed _ => true
  | .badPrice => true
  | _ => false

/-- The grouped per-ticker lookup over a row list: the price that the
`by_ticker` view associates to `(t, d)` (the last matching row wins,
matching Python dict assignment order). -/
def lastPriceIn (rows : List Row) (t d : Line) : Option ℚ :=
  rows.foldl (fun acc r => if r.1 = d ∧ r.2.1 = t then some r.2.2 else acc) none

/-- Uniqueness of `(date, ticker)` keys in a row list. -/
def rowKeysNodup (rows : List Row) : Prop :=
  (rows.map (fun r => (r.1, r.2.1))).Nodup

/-- First index of an element in a list (0 when absent of the list's
range semantics matter only for members). -/
def firstIdx : List Line → Line → Nat
  | [], _ => 0
  | a :: t, d => if a = d then 0 else firstIdx t d + 1

/-! ### Lemmas about the dict model -/

lemma dGet_dSet {α β : Type} [DecidableEq α] (l : List (α × β)) (k k2 : α) (v : β) :
    dGet (dSet l k v) k2 = if k = k2 then some v else dGet l k2 := by
  induction l with
  | nil => simp [dSet, dGet]
  | cons h t ih =>
    obtain ⟨k0, v0⟩ := h
    by_cases h0 : k0 = k
    · subst h0
      by_cases h2 : k0 = k2 <;> simp [dSet, dGet, h2]
    · by_cases h2 : k0 = k2
      · subst h2
        have : ¬ k = k0 := fun hh => h0 hh.symm
        simp [dSet, dGet, h0, this]
      · simp [dSet, dGet, h0, h2, ih]

lemma dGet_isSome_iff {α β : Type} [DecidableEq α] (l : List (α × β)) (k : α) :
    (dGet l k).isSome = true ↔ k ∈ dKeys l := by
  induction l with
  | nil => simp [dGet, dKeys]
  | cons h t ih =>
    obtain ⟨k0, v0⟩ := h
    by_cases h0 : k0 = k
    · subst h0
      simp [dGet, dKeys]
    · have h0' : ¬ k = k0 := fun hh => h0 hh.symm
      simp [dGet, dKeys, h0, h0', ih]

lemma dGet_eq_none_iff {α β : Type} [DecidableEq α] (l : List (α × β)) (k : α) :
    dGet l k = none ↔ k ∉ dKeys l := by
  rw [← dGet_isSome_iff]
  cases dGet l k <;> simp

lemma dKeys_dSet {α β : Type} [DecidableEq α] (l : List (α × β)) (k : α) (v : β) :
    dKeys (dSet l k v) = if k ∈ dKeys l then dKeys l else dKeys l ++ [k] := by
  induction l with
  | nil => simp [dSet, dKeys]
  | cons h t ih =>
    obtain ⟨k0, v0⟩ := h
    by_cases h0 : k0 = k
    · subst h0
      simp [dSet, dKeys]
    · have h0' : ¬ k = k0 := fun hh => h0 hh.symm
      simp only [dKeys] at ih ⊢
      simp only [dSet, if_neg h0, List.map_cons, List.mem_cons, ih]
      by_cases hk : k ∈ List.map Prod.fst t <;> simp [hk, h0']

lemma nodup_dKeys_dSet {α β : Type} [DecidableEq α] {l : List (α × β)} (k : α) (v : β)
    (h : (dKeys l).Nodup) : (dKeys (dSet l k v)).Nodup := by
  rw [dKeys_dSet]
  by_cases hk : k ∈ dKeys l
  · simpa [hk]
  · simpa [hk, List.nodup_append] using h

lemma dGet_mem {α β : Type} [DecidableEq α] {l : List (α × β)} {k : α} {v : β}
    (h : dGet l k = some v) : (k, v) ∈ l := by
  induction l with
  | nil => simp [dGet] at h
  | cons hd t ih =>
    obtain ⟨k0, v0⟩ := hd
    by_cases h0 : k0 = k
    · subst h0
      simp [dGet] at h
      simp [h]
    · simp [dGet, h0] at h
      simp [ih h]

lemma mem_dGet {α β : Type} [DecidableEq α] {l : List (α × β)} {k : α} {v : β}
    (hn : (dKeys l).Nodup) (h : (k, v) ∈ l) : dGet l k = some v := by
  induction l with
  | nil => simp at h
  | cons hd t ih =>
    obtain ⟨k0, v0⟩ := hd
    simp [dKeys, List.nodup_cons] at hn
    rcases List.mem_cons.mp h with heq | ht
    · have h1 : k0 = k := (Prod.ext_iff.mp heq).1.symm
      have h2 : v0 = v := (Prod.ext_iff.mp heq).2.symm
      subst h1
      subst h2
      simp [dGet]
    · by_cases h0 : k0 = k
      · subst h0
        exact absurd (List.mem_map_of_mem Prod.fst ht) (by simpa using hn.1)
      · simpa [dGet, h0] using ih (by simpa [dKeys] using hn.2) ht

lemma mem_dSet_sub {α β : Type} [DecidableEq α] {l : List (α × β)} {k : α} {v : β}
    {e : α × β} (h : e ∈ dSet l k v) : e = (k, v) ∨ e ∈ l := by
  induction l with
  | nil => simpa [dSet] using h
  | cons hd t ih =>
    obtain ⟨k0, v0⟩ := hd
    by_cases h0 : k0 = k
    · subst h0
      simp [dSet] at h
      tauto
    · simp [dSet, h0] at h
      rcases h with h | h
      · simp [h]
      · rcases ih h with h | h <;> simp [h]

lemma dSet_of_not_mem {α β : Type} [DecidableEq α] {l : List (α × β)} {k : α} (v : β)
    (h : k ∉ dKeys l) : dSet l k v = l ++ [(k, v)] := by
  induction l with
  | nil => simp [dSet]
  | cons hd t ih =>
    obtain ⟨k0, v0⟩ := hd
    simp [dKeys] at h
    push_neg at h
    have h0 : ¬ k0 = k := fun hh => h.1 hh.symm
    simp [dSet, h0, ih (by simpa [dKeys] using h.2)]

/-! ### Lemmas about the Python comparison orders -/

lemma charToNat_inj {a b : Char} (h : a.toNat = b.toNat) : a = b :=
  Char.ext (UInt32.ext h)

lemma clLtB_irrefl (a : Line) : clLtB a a = false := by
  induction a with
  | nil => rfl
  | cons x xs ih => simp [clLtB, ih]

lemma clLtB_asymm : ∀ (a b : Line), clLtB a b = true → clLtB b a = false := by
  intro a
  induction a with
  | nil =>
    intro b h
    cases b <;> simp [clLtB] at *
  | cons x xs ih =>
    intro b h
    cases b with
    | nil => simp [clLtB] at h
    | cons y ys =>
      simp only [clLtB] at h ⊢
      by_cases h1 : x.toNat < y.toNat
      · have h2 : ¬ y.toNat < x.toNat := by omega
        simp [h1, h2]
      · by_cases h2 : y.toNat < x.toNat
        · simp [h1, h2] at h
        · simp [h1, h2] at h ⊢
          exact ih ys h

lemma clLtB_trans : ∀ (a b c : Line),
    clLtB a b = true → clLtB b c = true → clLtB a c = true := by
  intro a
  induction a with
  | nil =>
    intro b c hab hbc
    cases b with
    | nil => simp [clLtB] at hab
    | cons y ys =>
      cases c with
      | nil => simp [clLtB] at hbc
      | cons z zs => simp [clLtB]
  | cons x xs ih =>
    intro b c hab hbc
    cases b with
    | nil => simp [clLtB] at hab
    | cons y ys =>
      cases c with
      | nil => simp [clLtB] at hbc
      | cons z zs =>
        simp only [clLtB] at hab hbc ⊢
        by_cases hxy : x.toNat < y.toNat
        · by_cases hyz : y.toNat < z.toNat
          · simp [show x.toNat < z.toNat by omega]
          · by_cases hzy : z.toNat < y.toNat
            · simp [hyz, hzy] at hbc
            · simp [show x.toNat < z.toNat by omega]
        · by_cases hyx : y.toNat < x.toNat
          · simp [hxy, hyx] at hab
          · simp only [hxy, hyx, if_false] at hab
            by_cases hyz : y.toNat < z.toNat
            · simp [show x.toNat < z.toNat by omega]
            · by_cases hzy : z.toNat < y.toNat
              · simp [hyz, hzy] at hbc
              · simp only [hyz, hzy, if_false] at hbc
                have hxz : ¬ x.toNat < z.toNat := by omega
                have hzx : ¬ z.toNat < x.toNat := by omega
                simp only [hxz, hzx, if_false]
                exact ih ys zs hab hbc

lemma clLtB_conn : ∀ (a b : Line), clLtB a b = false → clLtB b a = false → a = b := by
  intro a
  induction a with
  | nil =>
    intro b h1 _
    cases b with
    | nil => rfl
    | cons y ys => simp [clLtB] at h1
  | cons x xs ih =>
    intro b h1 h2
    cases b with
    | nil => simp [clLtB] at h2
    | cons y ys =>
      simp only [clLtB] at h1 h2
      by_cases hxy : x.toNat < y.toNat
      · simp [hxy] at h1
      · by_cases hyx : y.toNat < x.toNat
        · simp [hyx] at h2
        · have hx : x = y := charToNat_inj (by omega)
          subst hx
          simp only [hxy, hyx, if_false, lt_irrefl] at h1 h2
          rw [ih ys h1 h2]

lemma bool_not_true {x : Bool} (h : ¬ x = true) : x = false := by
  cases x
  · rfl
  · exact absurd rfl h

lemma keyLtB_asymm {a b : Line × Line} (h : keyLtB a b = true) : keyLtB b a = false := by
  obtain ⟨a1, a2⟩ := a
  obtain ⟨b1, b2⟩ := b
  simp only [keyLtB] at h ⊢
  by_cases h1 : a1 = b1
  · subst h1
    simp only [if_pos rfl] at h ⊢
    exact clLtB_asymm _ _ h
  · have h1' : ¬ b1 = a1 := fun hh => h1 hh.symm
    simp only [if_neg h1, if_neg h1'] at h ⊢
    exact clLtB_asymm _ _ h

lemma keyLtB_trans {a b c : Line × Line} (hab : keyLtB a b = true)
    (hbc : keyLtB b c = true) : keyLtB a c = true := by
  obtain ⟨a1, a2⟩ := a
  obtain ⟨b1, b2⟩ := b
  obtain ⟨c1, c2⟩ := c
  simp only [keyLtB] at hab hbc ⊢
  by_cases h1 : a1 = b1
  · subst h1
    by_cases h2 : a1 = c1
    · subst h2
      simp only [if_pos rfl] at hab hbc ⊢
      exact clLtB_trans _ _ _ hab hbc
    · simp only [if_pos rfl, if_neg h2] at hab hbc ⊢
      exact hbc
  · by_cases h2 : b1 = c1
    · subst h2
      simp only [if_pos rfl, if_neg h1] at hab hbc ⊢
      exact hab
    · simp only [if_neg h1, if_neg h2] at hab hbc
      have h3 : ¬ a1 = c1 := by
        intro hh
        subst hh
        have h4 := clLtB_asymm _ _ hbc
        rw [h4] at hab
        simp at hab
      simp only [if_neg h3]
      exact clLtB_trans _ _ _ hab hbc

lemma keyLtB_conn {a b : Line × Line} (h1 : keyLtB a b = false)
    (h2 : keyLtB b a = false) : a = b := by
  obtain ⟨a1, a2⟩ := a
  obtain ⟨b1, b2⟩ := b
  simp only [keyLtB] at h1 h2
  by_cases hf : a1 = b1
  · subst hf
    simp only [if_pos rfl] at h1 h2
    rw [clLtB_conn _ _ h1 h2]
  · have hf' : ¬ b1 = a1 := fun hh => hf hh.symm
    simp only [if_neg hf, if_neg hf'] at h1 h2
    exact absurd (clLtB_conn _ _ h1 h2) hf

lemma momLtB_asymm {a b : Line × ℚ} (h : momLtB a b = true) : momLtB b a = false := by
  obtain ⟨a1, a2⟩ := a
  obtain ⟨b1, b2⟩ := b
  simp only [momLtB] at h ⊢
  by_cases h1 : a2 = b2
  · subst h1
    simp only [if_pos rfl] at h ⊢
    exact clLtB_asymm _ _ h
  · have h1' : ¬ b2 = a2 := fun hh => h1 hh.symm
    simp only [if_neg h1, if_neg h1', decide_eq_true_eq] at h ⊢
    simp [not_lt.mpr (le_of_lt h)]

lemma momLtB_trans {a b c : Line × ℚ} (hab : momLtB a b = true)
    (hbc : momLtB b c = true) : momLtB a c = true := by
  obtain ⟨a1, a2⟩ := a
  obtain ⟨b1, b2⟩ := b
  obtain ⟨c1, c2⟩ := c
  simp only [momLtB] at hab hbc ⊢
  by_cases h1 : a2 = b2
  · subst h1
    by_cases h2 : a2 = c2
    · subst h2
      simp only [if_pos rfl] at hab hbc ⊢
      exact clLtB_trans _ _ _ hab hbc
    · simp only [if_pos rfl, if_neg h2] at hab hbc ⊢
      exact hbc
  · by_cases h2 : b2 = c2
    · subst h2
      simp only [if_pos rfl, if_neg h1] at hab hbc ⊢
      exact hab
    · simp only [if_neg h1, if_neg h2, decide_eq_true_eq] at hab hbc
      have h4 : c2 < a2 := lt_trans hbc hab
      have h3 : ¬ a2 = c2 := fun hh => absurd (hh ▸ h4) (lt_irrefl _)
      simp only [if_neg h3, decide_eq_true_eq]
      exact h4

lemma momLtB_conn {a b : Line × ℚ} (h1 : momLtB a b = false)
    (h2 : momLtB b a = false) : a = b := by
  obtain ⟨a1, a2⟩ := a
  obtain ⟨b1, b2⟩ := b
  simp only [momLtB] at h1 h2
  by_cases hf : a2 = b2
  · subst hf
    simp only [if_pos rfl] at h1 h2
    rw [clLtB_conn _ _ h1 h2]
  · have hf' : ¬ b2 = a2 := fun hh => hf hh.symm
    simp only [if_neg hf, if_neg hf', decide_eq_false_iff_not, not_lt] at h1 h2
    exact absurd (le_antisymm h1 h2) hf

lemma keyLeB_trans (a b c : Line × Line) (hab : keyLeB a b = true)
    (hbc : keyLeB b c = true) : keyLeB a c = true := by
  unfold keyLeB at *
  rw [Bool.not_eq_true'] at hab hbc ⊢
  by_cases hca : keyLtB c a = true
  · exfalso
    by_cases hab2 : keyLtB a b = true
    · have h2 := keyLtB_trans hca hab2
      rw [hbc] at h2
      simp at h2
    · have heq : a = b := keyLtB_conn (bool_not_true hab2) hab
      subst heq
      rw [hca] at hbc
      simp at hbc
  · exact bool_not_true hca

lemma keyLeB_total (a b : Line × Line) : (keyLeB a b || keyLeB b a) = true := by
  unfold keyLeB
  by_cases h : keyLtB b a = true
  · rw [h, keyLtB_asymm h]
    rfl
  · rw [bool_not_true h]
    simp

lemma momLeB_trans (a b c : Line × ℚ) (hab : momLeB a b = true)
    (hbc : momLeB b c = true) : momLeB a c = true := by
  unfold momLeB at *
  rw [Bool.not_eq_true'] at hab hbc ⊢
  by_cases hca : momLtB c a = true
  · exfalso
    by_cases hab2 : momLtB a b = true
    · have h2 := momLtB_trans hca hab2
      rw [hbc] at h2
      simp at h2
    · have heq : a = b := momLtB_conn (bool_not_true hab2) hab
      subst heq
      rw [hca] at hbc
      simp at hbc
  · exact bool_not_true hca

lemma momLeB_total (a b : Line × ℚ) : (momLeB a b || momLeB b a) = true := by
  unfold momLeB
  by_cases h : momLtB b a = true
  · rw [h, momLtB_asymm h]
    rfl
  · rw [bool_not_true h]
    simp

lemma momLeB_antisymm {a b : Line × ℚ} (hab : momLeB a b = true)
    (hba : momLeB b a = true) : a = b := by
  unfold momLeB at *
  rw [Bool.not_eq_true'] at hab hba
  exact momLtB_conn hba hab

lemma keyLeB_ne_lt {a b : Line × Line} (hab : keyLeB a b = true) (hne : a ≠ b) :
    keyLtB a b = true := by
  unfold keyLeB at hab
  rw [Bool.not_eq_true'] at hab
  by_cases h : keyLtB a b = true
  · exact h
  · exact absurd (keyLtB_conn (bool_not_true h) hab) hne

/-! ### Invariants of the cleaning loop -/

/-- Outcomes counted by `rows_read` (line 44: counting happens after the
malformed/header checks, before price validation). -/
def isReadOutcome : LineOutcome → Bool
  | .badPrice => true
  | .valid _ _ _ => true
  | _ => false

lemma runClean_append (parse : Line → Option ℚ) (ls : List Line) (x : Line) :
    runClean parse (ls ++ [x]) = stepLine parse (runClean parse ls) x := by
  simp [runClean, List.foldl_append]

lemma lastValidPrice_append (parse : Line → Option ℚ) (ls : List Line) (x : Line)
    (k : Line × Line) :
    lastValidPrice parse (ls ++ [x]) k =
      (match classifyLine parse x with
        | .valid d t p => if (d, t) = k then some p else lastValidPrice parse ls k
        | _ => lastValidPrice parse ls k) := by
  simp only [lastValidPrice, List.foldl_append, List.foldl_cons, List.foldl_nil]

lemma validOccs_append (parse : Line → Option ℚ) (ls : List Line) (x : Line)
    (k : Line × Line) :
    validOccs parse (ls ++ [x]) k =
      validOccs parse ls k + (if validKey parse x = some k then 1 else 0) := by
  simp [validOccs, List.countP_append, List.countP_cons]

lemma validKey_of_valid {parse : Line → Option ℚ} {x : Line} {d t : Line} {p : ℚ}
    (hc : classifyLine parse x = .valid d t p) : validKey parse x = some (d, t) := by
  simp [validKey, hc]

lemma validKey_of_not_valid {parse : Line → Option ℚ} {x : Line}
    (hc : ∀ d t p, classifyLine parse x ≠ .valid d t p) : validKey parse x = none := by
  unfold validKey
  cases h : classifyLine parse x
  case valid d t p => exact absurd h (hc d t p)
  all_goals rfl

lemma lastValid_isSome_iff (parse : Line → Option ℚ) (ls : List Line) (k : Line × Line) :
    (lastValidPrice parse ls k).isSome = true ↔ 0 < validOccs parse ls k := by
  induction ls using List.reverseRecOn with
  | nil => simp [lastValidPrice, validOccs]
  | append_singleton ls x ih =>
    rw [lastValidPrice_append, validOccs_append]
    cases hc : classifyLine parse x
    case valid d t p =>
      by_cases hk : (d, t) = k
      · simp [hk, validKey_of_valid hc]
      · have : validKey parse x ≠ some k := by
          rw [validKey_of_valid hc]
          simp [hk]
        simp [hk, this, ih]
    all_goals
      have : validKey parse x = none := validKey_of_not_valid (by simp [hc])
      simp [this, ih]

lemma classify_valid_pos {parse : Line → Option ℚ} {line d t : Line} {p : ℚ}
    (h : classifyLine parse line = .valid d t p) : 0 < p := by
  simp only [classifyLine] at h
  split at h
  · simp at h
  · split at h
    · simp at h
    · split at h
      · simp at h
      · split at h
        · simp at h
        · split at h
          · simp at h
          · simp only [LineOutcome.valid.injEq] at h
            obtain ⟨-, -, hp⟩ := h
            subst hp
            linarith [not_le.mp (by assumption : ¬ _ ≤ (0 : ℚ))]

lemma runClean_lastSeen_dGet (parse : Line → Option ℚ) (ls : List Line) (k : Line × Line) :
    dGet (runClean parse ls).lastSeen k = lastValidPrice parse ls k := by
  induction ls using List.reverseRecOn with
  | nil => simp [runClean, initState, dGet, lastValidPrice]
  | append_singleton ls x ih =>
    rw [runClean_append, lastValidPrice_append]
    cases hc : classifyLine parse x
    case valid d t p => simp [stepLine, hc, dGet_dSet, ih]
    all_goals simp [stepLine, hc, ih]

lemma runClean_lastSeen_nodup (parse : Line → Option ℚ) (ls : List Line) :
    (dKeys (runClean parse ls).lastSeen).Nodup := by
  induction ls using List.reverseRecOn with
  | nil => simp [runClean, initState, dKeys]
  | append_singleton ls x ih =>
    rw [runClean_append]
    cases hc : classifyLine parse x
    case valid d t p =>
      simp only [stepLine, hc]
      exact nodup_dKeys_dSet _ _ ih
    all_goals simpa [stepLine, hc] using ih

lemma runClean_lastSeen_pos (parse : Line → Option ℚ) (ls : List Line) :
    ∀ kv ∈ (runClean parse ls).lastSeen, 0 < kv.2 := by
  induction ls using List.reverseRecOn with
  | nil => simp [runClean, initState]
  | append_singleton ls x ih =>
    rw [runClean_append]
    cases hc : classifyLine parse x
    case valid d t p =>
      simp only [stepLine, hc]
      intro kv hkv
      rcases mem_dSet_sub hkv with h | h
      · rw [h]
        exact classify_valid_pos hc
      · exact ih kv h
    all_goals simpa [stepLine, hc] using ih

lemma runClean_dupKeys_dGet (parse : Line → Option ℚ) (ls : List Line) (k : Line × Line) :
    dGet (runClean parse ls).dupKeys k =
      if 2 ≤ validOccs parse ls k then some (validOccs parse ls k) else none := by
  induction ls using List.reverseRecOn with
  | nil => simp [runClean, initState, dGet, validOccs]
  | append_singleton ls x ih =>
    rw [runClean_append, validOccs_append]
    cases hc : classifyLine parse x
    case valid d t p =>
      have hvk := validKey_of_valid hc
      have hsome : (dGet (runClean parse ls).lastSeen (d, t)).isSome =
          (lastValidPrice parse ls (d, t)).isSome := by
        rw [runClean_lastSeen_dGet]
      by_cases hmem : (dGet (runClean parse ls).lastSeen (d, t)).isSome = true
      · have hocc : 0 < validOccs parse ls (d, t) := by
          rw [← lastValid_isSome_iff parse ls (d, t), ← hsome]
          exact hmem
        simp only [stepLine, hc, hmem, if_pos]
        rw [dGet_dSet]
        by_cases hk : (d, t) = k
        · subst hk
          simp only [hvk, if_pos rfl]
          by_cases h2 : 2 ≤ validOccs parse ls (d, t)
          · rw [dGetD, ih, if_pos h2]
            simp [show 2 ≤ validOccs parse ls (d, t) + 1 by omega]
          · have h1 : validOccs parse ls (d, t) = 1 := by omega
            rw [dGetD, ih, if_neg h2]
            simp [h1]
        · have : validKey parse x ≠ some k := by rw [hvk]; simp [hk]
          simp [hk, this, ih]
      · have hocc : ¬ 0 < validOccs parse ls (d, t) := by
          rw [← lastValid_isSome_iff parse ls (d, t), ← hsome]
          simpa using hmem
        have hocc0 : validOccs parse ls (d, t) = 0 := by omega
        simp only [stepLine, hc, hmem, if_neg, if_false, Bool.false_eq_true]
        by_cases hk : (d, t) = k
        · subst hk
          simp only [hvk, if_pos rfl]
          rw [ih]
          simp [hocc0]
        · have : validKey parse x ≠ some k := by rw [hvk]; simp [hk]
          simp [this, ih]
    all_goals
      have hvk : validKey parse x = none := validKey_of_not_valid (by simp [hc])
      simp [stepLine, hc, hvk, ih]

lemma runClean_dupKeys_nodup (parse : Line → Option ℚ) (ls : List Line) :
    (dKeys (runClean parse ls).dupKeys).Nodup := by
  induction ls using List.reverseRecOn with
  | nil => simp [runClean, initState, dKeys]
  | append_singleton ls x ih =>
    rw [runClean_append]
    cases hc : classifyLine parse x
    case valid d t p =>
      simp only [stepLine, hc]
      by_cases hmem : (dGet (runClean parse ls).lastSeen (d, t)).isSome = true
      · simp only [hmem, if_pos]
        exact nodup_dKeys_dSet _ _ ih
      · simpa [hmem] using ih
    all_goals simpa [stepLine, hc] using ih

lemma runClean_rowsRead (parse : Line → Option ℚ) (ls : List Line) :
    (runClean parse ls).rowsRead =
      ls.countP (fun l => isReadOutcome (classifyLine parse l)) := by
  induction ls using List.reverseRecOn with
  | nil => simp [runClean, initState]
  | append_singleton ls x ih =>
    rw [runClean_append, List.countP_append]
    cases hc : classifyLine parse x <;>
      simp [stepLine, hc, ih, List.countP_cons, isReadOutcome]

lemma runClean_invalid (parse : Line → Option ℚ) (ls : List Line) :
    (runClean parse ls).invalid = ls.countP (specCountsAsInvalid parse) := by
  induction ls using List.reverseRecOn with
  | nil => simp [runClean, initState]
  | append_singleton ls x ih =>
    rw [runClean_append, List.countP_append]
    cases hc : classifyLine parse x <;>
      simp [stepLine, hc, ih, List.countP_cons, specCountsAsInvalid]

lemma runClean_audit (parse : Line → Option ℚ) (ls : List Line) :
    ∀ e ∈ (runClean parse ls).auditLog, ∃ s, e = AuditEntry.skippedMalformed s := by
  induction ls using List.reverseRecOn with
  | nil => simp [runClean, initState]
  | append_singleton ls x ih =>
    rw [runClean_append]
    cases hc : classifyLine parse x
    case malformed s =>
      simp only [stepLine, hc]
      intro e he
      rcases List.mem_append.mp he with h | h
      · exact ih e h
      · exact ⟨s.take 80, by simpa using h⟩
    all_goals simpa [stepLine, hc] using ih

/-! ### Duplicate bookkeeping versus the spec-side counts -/

lemma mem_dupKeys_iff (parse : Line → Option ℚ) (ls : List Line) (k : Line × Line) :
    k ∈ dKeys (runClean parse ls).dupKeys ↔ 2 ≤ validOccs parse ls k := by
  rw [← dGet_isSome_iff, runClean_dupKeys_dGet]
  by_cases h : 2 ≤ validOccs parse ls k <;> simp [h]

lemma specDup_nodup (parse : Line → Option ℚ) (ls : List Line) :
    (specDuplicatedKeys parse ls).Nodup :=
  (List.nodup_dedup _).filter _

lemma mem_specDup_iff (parse : Line → Option ℚ) (ls : List Line) (k : Line × Line) :
    k ∈ specDuplicatedKeys parse ls ↔ 2 ≤ validOccs parse ls k := by
  unfold specDuplicatedKeys
  rw [List.mem_filter, List.mem_dedup, List.mem_filterMap]
  constructor
  · rintro ⟨-, h⟩
    simpa using h
  · intro h
    refine ⟨?_, by simpa using h⟩
    have hpos : 0 < validOccs parse ls k := by omega
    rw [validOccs, List.countP_pos_iff] at hpos
    obtain ⟨a, ha, hk⟩ := hpos
    exact ⟨a, ha, by simpa using hk⟩

lemma dupKeys_entries_perm (parse : Line → Option ℚ) (ls : List Line) :
    (runClean parse ls).dupKeys.Perm
      ((specDuplicatedKeys parse ls).map (fun k => (k, validOccs parse ls k))) := by
  apply List.perm_of_nodup_nodup_toFinset_eq
  · exact List.Nodup.of_map Prod.fst (runClean_dupKeys_nodup parse ls)
  · exact (specDup_nodup parse ls).map
      (fun k1 k2 hk => congrArg Prod.fst hk)
  · ext e
    obtain ⟨k, c⟩ := e
    simp only [List.mem_toFinset, List.mem_map]
    constructor
    · intro hmem
      have hget := mem_dGet (runClean_dupKeys_nodup parse ls) hmem
      rw [runClean_dupKeys_dGet] at hget
      by_cases h2 : 2 ≤ validOccs parse ls k
      · rw [if_pos h2] at hget
        have hc : validOccs parse ls k = c := by injection hget
        exact ⟨k, (mem_specDup_iff parse ls k).mpr h2, by simp [hc]⟩
      · rw [if_neg h2] at hget
        exact absurd hget (by simp)
    · rintro ⟨k2, hk2, heq⟩
      have h1 : k2 = k := congrArg Prod.fst heq
      subst h1
      have h2 : validOccs parse ls k2 = c := congrArg Prod.snd heq
      have hocc := (mem_specDup_iff parse ls k2).mp hk2
      apply dGet_mem (l := (runClean parse ls).dupKeys) (k := k2)
      rw [runClean_dupKeys_dGet, if_pos hocc, h2]

lemma numDup_eq_spec (parse : Line → Option ℚ) (ls : List Line) :
    numDuplicatePairs (runClean parse ls) = (specDuplicatedKeys parse ls).length := by
  unfold numDuplicatePairs
  rw [(dupKeys_entries_perm parse ls).length_eq, List.length_map]

lemma totalDup_eq_spec (parse : Line → Option ℚ) (ls : List Line) :
    totalDuplicateOccurrences (runClean parse ls) = specTotalDupOccs parse ls := by
  unfold totalDuplicateOccurrences specTotalDupOccs
  rw [((dupKeys_entries_perm parse ls).map Prod.snd).sum_eq, List.map_map]
  rfl

lemma finalAudit_resolved_count (parse : Line → Option ℚ) (ls : List Line) :
    (finalAuditLog (runClean parse ls)).countP
        (fun e => decide (e = AuditEntry.resolvedDuplicates
          (numDuplicatePairs (runClean parse ls))
          (duplicateRowsDropped (runClean parse ls)))) =
      if duplicateRowsDropped (runClean parse ls) = 0 then 0 else 1 := by
  unfold finalAuditLog
  rw [List.countP_append, List.countP_append, List.countP_append, List.countP_append]
  have h0 : (runClean parse ls).auditLog.countP
      (fun e => decide (e = AuditEntry.resolvedDuplicates
        (numDuplicatePairs (runClean parse ls))
        (duplicateRowsDropped (runClean parse ls)))) = 0 := by
    rw [List.countP_eq_zero]
    intro e he
    obtain ⟨s, hs⟩ := runClean_audit parse ls e he
    simp [hs]
  rw [h0]
  by_cases hd : duplicateRowsDropped (runClean parse ls) = 0 <;>
    simp [hd, List.countP_cons]

/-! ### The canonical table: sortedness, uniqueness, positivity -/

lemma canonicalTable_keys (st : CleanState) :
    (canonicalTable st).map Prod.fst = (dKeys st.lastSeen).mergeSort keyLeB := by
  unfold canonicalTable
  rw [List.map_map]
  exact List.map_id _

lemma canonicalTable_nodup_keys (parse : Line → Option ℚ) (ls : List Line) :
    ((canonicalTable (runClean parse ls)).map Prod.fst).Nodup := by
  rw [canonicalTable_keys]
  exact (List.mergeSort_perm _ keyLeB).symm.nodup (runClean_lastSeen_nodup parse ls)

lemma canonicalTable_sorted (parse : Line → Option ℚ) (ls : List Line) :
    (canonicalTable (runClean parse ls)).Pairwise
      (fun a b => keyLtB a.1 b.1 = true) := by
  have hnk : ((dKeys (runClean parse ls).lastSeen).mergeSort keyLeB).Nodup :=
    (List.mergeSort_perm _ keyLeB).symm.nodup (runClean_lastSeen_nodup parse ls)
  have hs : ((dKeys (runClean parse ls).lastSeen).mergeSort keyLeB).Pairwise
      (fun a b => keyLeB a b = true) :=
    List.sorted_mergeSort keyLeB_trans keyLeB_total _
  have hlt : ((dKeys (runClean parse ls).lastSeen).mergeSort keyLeB).Pairwise
      (fun a b => keyLtB a b = true) :=
    (hs.and hnk).imp (fun h => keyLeB_ne_lt h.1 h.2)
  unfold canonicalTable
  rw [List.pairwise_map]
  exact hlt

lemma canonicalTable_pos (parse : Line → Option ℚ) (ls : List Line) :
    ∀ e ∈ canonicalTable (runClean parse ls), 0 < e.2 := by
  intro e he
  unfold canonicalTable at he
  rw [List.mem_map] at he
  obtain ⟨k, hk, rfl⟩ := he
  have hkmem : k ∈ dKeys (runClean parse ls).lastSeen :=
    (List.mergeSort_perm _ keyLeB).mem_iff.mp hk
  have hsome : (dGet (runClean parse ls).lastSeen k).isSome = true :=
    (dGet_isSome_iff _ _).mpr hkmem
  obtain ⟨v, hv⟩ := Option.isSome_iff_exists.mp hsome
  have hpos := runClean_lastSeen_pos parse ls (k, v) (dGet_mem hv)
  simpa [dGetD, hv] using hpos

/-! ### The per-ticker view and the candidate list -/

/-- Lookup through the `by_ticker` grouping. -/
def btGet (rows : List Row) (t d : Line) : Option ℚ :=
  match dGet (buildByTicker rows) t with
  | some inner => dGet inner d
  | none => none

lemma buildByTicker_append (rows : List Row) (r : Row) :
    buildByTicker (rows ++ [r]) =
      dSet (buildByTicker rows) r.2.1
        (dSet (dGetD (buildByTicker rows) r.2.1 []) r.1 r.2.2) := by
  simp [buildByTicker, List.foldl_append]

lemma lastPriceIn_append (rows : List Row) (r : Row) (t d : Line) :
    lastPriceIn (rows ++ [r]) t d =
      if r.1 = d ∧ r.2.1 = t then some r.2.2 else lastPriceIn rows t d := by
  simp [lastPriceIn, List.foldl_append]

lemma btGet_eq_lastPriceIn (rows : List Row) (t d : Line) :
    btGet rows t d = lastPriceIn rows t d := by
  induction rows using List.reverseRecOn with
  | nil => simp [btGet, buildByTicker, dGet, lastPriceIn]
  | append_singleton rows r ih =>
    rw [lastPriceIn_append]
    have hbt2 : dGet (buildByTicker (rows ++ [r])) t =
        if r.2.1 = t then
          some (dSet (dGetD (buildByTicker rows) r.2.1 []) r.1 r.2.2)
        else dGet (buildByTicker rows) t := by
      rw [buildByTicker_append, dGet_dSet]
    by_cases ht : r.2.1 = t
    · rw [if_pos ht] at hbt2
      unfold btGet
      rw [hbt2]
      show dGet (dSet (dGetD (buildByTicker rows) r.2.1 []) r.1 r.2.2) d =
        if r.1 = d ∧ r.2.1 = t then some r.2.2 else lastPriceIn rows t d
      rw [dGet_dSet]
      by_cases hd : r.1 = d
      · rw [if_pos hd, if_pos ⟨hd, ht⟩]
      · rw [if_neg hd, if_neg (fun hh => hd hh.1)]
        rw [← ih]
        unfold btGet
        rw [← ht]
        unfold dGetD
        cases hbt : dGet (buildByTicker rows) r.2.1 with
        | none => simp [dGet]
        | some inner => simp
    · rw [if_neg ht] at hbt2
      unfold btGet
      rw [hbt2, if_neg (fun hh => ht hh.2)]
      exact ih

lemma btKeys_nodup (rows : List Row) : (dKeys (buildByTicker rows)).Nodup := by
  induction rows using List.reverseRecOn with
  | nil => simp [buildByTicker, dKeys]
  | append_singleton rows r ih =>
    rw [buildByTicker_append]
    exact nodup_dKeys_dSet _ _ ih

lemma mem_btKeys_iff (rows : List Row) :
    ∀ t : Line, t ∈ dKeys (buildByTicker rows) ↔ t ∈ rows.map (fun r => r.2.1) := by
  induction rows using List.reverseRecOn with
  | nil =>
    intro t
    simp [buildByTicker, dKeys]
  | append_singleton rows r ih =>
    intro t
    rw [buildByTicker_append, dKeys_dSet, List.map_append]
    by_cases hmem : r.2.1 ∈ dKeys (buildByTicker rows)
    · rw [if_pos hmem]
      have hr21 : r.2.1 ∈ List.map (fun r => r.2.1) rows := (ih r.2.1).mp hmem
      rw [ih t]
      simp only [List.map_cons, List.map_nil, List.mem_append, List.mem_singleton]
      constructor
      · exact Or.inl
      · rintro (h | h)
        · exact h
        · subst h
          exact hr21
    · rw [if_neg hmem]
      simp [ih t]

lemma momentumCandidates_eq_keys (rows : List Row) (tgt ref : Line) :
    momentumCandidates rows tgt ref =
      (dKeys (buildByTicker rows)).filterMap (fun t =>
        match btGet rows t tgt, btGet rows t ref with
        | some pT, some pR => if pR ≤ 0 then none else some (t, pT / pR - 1)
        | _, _ => none) := by
  unfold momentumCandidates dKeys
  rw [List.filterMap_map]
  apply List.filterMap_congr
  intro e he
  have hget : dGet (buildByTicker rows) e.1 = some e.2 := by
    apply mem_dGet (btKeys_nodup rows)
    simpa using he
  simp only [Function.comp_apply, btGet, hget]

lemma mem_candidates_iff (rows : List Row) (tgt ref t : Line) (m : ℚ) :
    (t, m) ∈ momentumCandidates rows tgt ref ↔
      ∃ pT pR, lastPriceIn rows t tgt = some pT ∧ lastPriceIn rows t ref = some pR ∧
        0 < pR ∧ m = pT / pR - 1 := by
  rw [momentumCandidates_eq_keys, List.mem_filterMap]
  constructor
  · rintro ⟨t0, ht0, heq⟩
    cases h1 : btGet rows t0 tgt with
    | none => rw [h1] at heq; simp at heq
    | some pT =>
      cases h2 : btGet rows t0 ref with
      | none => rw [h1, h2] at heq; simp at heq
      | some pR =>
        rw [h1, h2] at heq
        by_cases hp : pR ≤ 0
        · simp [hp] at heq
        · simp only [if_neg hp, Option.some_inj, Prod.mk.injEq] at heq
          obtain ⟨ht, hm⟩ := heq
          subst ht
          exact ⟨pT, pR, by rw [← btGet_eq_lastPriceIn]; exact h1,
            by rw [← btGet_eq_lastPriceIn]; exact h2, not_le.mp hp, hm.symm⟩
  · rintro ⟨pT, pR, h1, h2, h3, h4⟩
    rw [← btGet_eq_lastPriceIn] at h1 h2
    have hkey : t ∈ dKeys (buildByTicker rows) := by
      unfold btGet at h1
      cases hbt : dGet (buildByTicker rows) t with
      | none => rw [hbt] at h1; simp at h1
      | some inner => exact (dGet_isSome_iff _ _).mp (by rw [hbt]; rfl)
    refine ⟨t, hkey, ?_⟩
    rw [h1, h2]
    simp [not_le.mpr h3, h4]

/-! ### Order-independence of the ranking -/

lemma rowKeysNodup_perm {rows rows2 : List Row} (h : rows.Perm rows2)
    (hn : rowKeysNodup rows) : rowKeysNodup rows2 :=
  (h.map _).nodup hn

lemma lastPriceIn_eq_some_iff {rows : List Row} (hn : rowKeysNodup rows)
    (t d : Line) (p : ℚ) : lastPriceIn rows t d = some p ↔ (d, t, p) ∈ rows := by
  induction rows using List.reverseRecOn with
  | nil => simp [lastPriceIn]
  | append_singleton rows r ih =>
    have hn2 : rowKeysNodup rows := by
      unfold rowKeysNodup at hn ⊢
      rw [List.map_append] at hn
      exact (List.nodup_append.mp hn).1
    have hdisj : ∀ q ∈ rows, (q.1, q.2.1) ≠ (r.1, r.2.1) := by
      unfold rowKeysNodup at hn
      rw [List.map_append, List.nodup_append] at hn
      intro q hq hkey
      exact hn.2.2 (List.mem_map_of_mem _ hq) (by simp [hkey])
    rw [lastPriceIn_append]
    by_cases hm : r.1 = d ∧ r.2.1 = t
    · rw [if_pos hm]
      obtain ⟨hm1, hm2⟩ := hm
      constructor
      · intro hp
        have hp2 : p = r.2.2 := (Option.some_inj.mp hp).symm
        subst hp2
        rw [← hm1, ← hm2]
        simp
      · intro hmem
        rcases List.mem_append.mp hmem with hmem | hmem
        · exact absurd (by simp [← hm1, ← hm2]) (hdisj _ hmem)
        · have : (d, t, p) = r := by simpa using hmem
          rw [← this]
    · rw [if_neg hm]
      rw [ih hn2]
      constructor
      · intro hmem
        exact List.mem_append.mpr (Or.inl hmem)
      · intro hmem
        rcases List.mem_append.mp hmem with hmem | hmem
        · exact hmem
        · have heq : (d, t, p) = r := by simpa using hmem
          exfalso
          apply hm
          constructor
          · exact (congrArg Prod.fst heq).symm
          · exact (congrArg (fun q => q.2.1) heq).symm

lemma lastPriceIn_perm {rows rows2 : List Row} (hn : rowKeysNodup rows)
    (h : rows.Perm rows2) (t d : Line) :
    lastPriceIn rows t d = lastPriceIn rows2 t d := by
  have hn2 : rowKeysNodup rows2 := rowKeysNodup_perm h hn
  cases h2 : lastPriceIn rows2 t d with
  | some p =>
    rw [(lastPriceIn_eq_some_iff hn t d p)]
    exact h.mem_iff.mpr ((lastPriceIn_eq_some_iff hn2 t d p).mp h2)
  | none =>
    cases h1 : lastPriceIn rows t d with
    | none => rfl
    | some p =>
      have hmem := (lastPriceIn_eq_some_iff hn t d p).mp h1
      have := (lastPriceIn_eq_some_iff hn2 t d p).mpr (h.mem_iff.mp hmem)
      rw [this] at h2
      exact absurd h2 (by simp)

lemma btKeys_perm {rows rows2 : List Row} (h : rows.Perm rows2) :
    (dKeys (buildByTicker rows)).Perm (dKeys (buildByTicker rows2)) := by
  apply List.perm_of_nodup_nodup_toFinset_eq (btKeys_nodup rows) (btKeys_nodup rows2)
  ext t
  simp only [List.mem_toFinset]
  rw [mem_btKeys_iff rows t, mem_btKeys_iff rows2 t]
  exact (h.map _).mem_iff

lemma candidates_perm {rows rows2 : List Row} (hn : rowKeysNodup rows)
    (h : rows.Perm rows2) (tgt ref : Line) :
    (momentumCandidates rows tgt ref).Perm (momentumCandidates rows2 tgt ref) := by
  rw [momentumCandidates_eq_keys, momentumCandidates_eq_keys]
  have hfun : (fun t =>
      match btGet rows2 t tgt, btGet rows2 t ref with
      | some pT, some pR => if pR ≤ 0 then none else some (t, pT / pR - 1)
      | _, _ => none) =
      (fun t =>
      match btGet rows t tgt, btGet rows t ref with
      | some pT, some pR => if pR ≤ 0 then none else some (t, pT / pR - 1)
      | _, _ => none) := by
    funext t
    rw [btGet_eq_lastPriceIn, btGet_eq_lastPriceIn, btGet_eq_lastPriceIn,
      btGet_eq_lastPriceIn, lastPriceIn_perm hn h t tgt, lastPriceIn_perm hn h t ref]
  rw [hfun]
  exact List.Perm.filterMap _ (btKeys_perm h)

lemma mergeSort_mom_eq {l1 l2 : List (Line × ℚ)} (h : l1.Perm l2) :
    l1.mergeSort momLeB = l2.mergeSort momLeB := by
  haveI : IsAntisymm (Line × ℚ) (fun a b => momLeB a b = true) :=
    ⟨fun a b h1 h2 => momLeB_antisymm h1 h2⟩
  apply List.eq_of_perm_of_sorted
    (r := fun a b => momLeB a b = true)
  · exact (List.mergeSort_perm l1 momLeB).trans (h.trans (List.mergeSort_perm l2 momLeB).symm)
  · exact List.sorted_mergeSort momLeB_trans momLeB_total l1
  · exact List.sorted_mergeSort momLeB_trans momLeB_total l2

/-! ### The trading calendar: first-seen order and the index bijection -/

/-- First-seen deduplication with an accumulator (what the
`seen`/`out` loop of lines 96-101 computes). -/
def fsAux (acc : List Line) : List Line → List Line
  | [] => acc
  | d :: t => fsAux (if d ∈ acc then acc else acc ++ [d]) t

lemma gtdo_eq_fsAux :
    ∀ (rows : List Row) (seen acc : List Line),
      (∀ x, x ∈ seen ↔ x ∈ acc) →
      (rows.foldl gtdoStep (seen, acc)).2 = fsAux acc (rows.map Prod.fst) := by
  intro rows
  induction rows with
  | nil =>
    intro seen acc hiff
    simp [fsAux]
  | cons r rest ih =>
    intro seen acc hiff
    rw [List.foldl_cons, List.map_cons]
    show ((rest.foldl gtdoStep (gtdoStep (seen, acc) r))).2 = fsAux _ _
    unfold gtdoStep fsAux
    by_cases hmem : r.1 ∈ seen
    · rw [if_pos hmem, if_pos ((hiff r.1).mp hmem)]
      exact ih seen acc hiff
    · rw [if_neg hmem, if_neg (fun hh => hmem ((hiff r.1).mpr hh))]
      apply ih
      intro x
      simp only [List.mem_cons, List.mem_append, List.mem_singleton, hiff x]
      tauto

lemma gtdo_eq (rows : List Row) :
    get_trading_dates_ordered rows = fsAux [] (rows.map Prod.fst) :=
  gtdo_eq_fsAux rows [] [] (by simp)

lemma fsAux_append (l1 l2 : List Line) :
    ∀ acc, fsAux acc (l1 ++ l2) = fsAux (fsAux acc l1) l2 := by
  induction l1 with
  | nil => intro acc; rfl
  | cons d t ih =>
    intro acc
    rw [List.cons_append]
    show fsAux (if d ∈ acc then acc else acc ++ [d]) (t ++ l2) =
      fsAux (fsAux (if d ∈ acc then acc else acc ++ [d]) t) l2
    exact ih _

lemma mem_fsAux (l : List Line) :
    ∀ (acc : List Line) (x : Line), x ∈ fsAux acc l ↔ x ∈ acc ∨ x ∈ l := by
  induction l with
  | nil =>
    intro acc x
    simp [fsAux]
  | cons d t ih =>
    intro acc x
    unfold fsAux
    by_cases hmem : d ∈ acc
    · rw [if_pos hmem, ih]
      simp only [List.mem_cons]
      constructor
      · rintro (h | h)
        · exact Or.inl h
        · exact Or.inr (Or.inr h)
      · rintro (h | h | h)
        · exact Or.inl h
        · rw [h]; exact Or.inl hmem
        · exact Or.inr h
    · rw [if_neg hmem, ih]
      simp only [List.mem_append, List.mem_singleton, List.mem_cons]
      tauto

lemma fsAux_nodup (l : List Line) :
    ∀ acc : List Line, acc.Nodup → (fsAux acc l).Nodup := by
  induction l with
  | nil =>
    intro acc h
    exact h
  | cons d t ih =>
    intro acc h
    unfold fsAux
    by_cases hmem : d ∈ acc
    · rw [if_pos hmem]
      exact ih acc h
    · rw [if_neg hmem]
      exact ih _ (by simp [List.nodup_append, h, hmem])

lemma firstIdx_lt_length {l : List Line} {x : Line} (h : x ∈ l) :
    firstIdx l x < l.length := by
  induction l with
  | nil => simp at h
  | cons a t ih =>
    unfold firstIdx
    by_cases ha : a = x
    · simp [ha]
    · rw [if_neg ha]
      have hx : x ∈ t := by
        rcases List.mem_cons.mp h with hh | hh
        · exact absurd hh.symm ha
        · exact hh
      simpa using ih hx

lemma firstIdx_append_of_mem {l1 : List Line} {x : Line} (l2 : List Line) (h : x ∈ l1) :
    firstIdx (l1 ++ l2) x = firstIdx l1 x := by
  induction l1 with
  | nil => simp at h
  | cons a t ih =>
    rw [List.cons_append]
    unfold firstIdx
    by_cases ha : a = x
    · rw [if_pos ha, if_pos ha]
    · rw [if_neg ha, if_neg ha]
      have hx : x ∈ t := by
        rcases List.mem_cons.mp h with hh | hh
        · exact absurd hh.symm ha
        · exact hh
      rw [ih hx]

lemma firstIdx_append_of_not_mem {l1 : List Line} {x : Line} (l2 : List Line)
    (h : x ∉ l1) : firstIdx (l1 ++ l2) x = l1.length + firstIdx l2 x := by
  induction l1 with
  | nil => simp
  | cons a t ih =>
    rw [List.cons_append]
    have ha : ¬ a = x := fun hh => h (by rw [hh]; exact List.mem_cons_self _ _)
    show (if a = x then 0 else firstIdx (t ++ l2) x + 1) = (a :: t).length + firstIdx l2 x
    rw [if_neg ha, ih (fun hh => h (List.mem_cons_of_mem _ hh))]
    simp [List.length_cons]
    omega

lemma fsAux_pairwise_firstIdx (l : List Line) :
    (fsAux [] l).Pairwise (fun a b => firstIdx l a < firstIdx l b) := by
  induction l using List.reverseRecOn with
  | nil => simp [fsAux]
  | append_singleton u a ih =>
    rw [fsAux_append]
    have hsub : ∀ x ∈ fsAux [] u, x ∈ u := fun x hx =>
      ((mem_fsAux u [] x).mp hx).resolve_left (by simp)
    unfold fsAux
    by_cases hmem : a ∈ fsAux [] u
    · rw [if_pos hmem]
      refine ih.imp_of_mem ?_
      intro x y hx hy hr
      rw [firstIdx_append_of_mem [a] (hsub x hx), firstIdx_append_of_mem [a] (hsub y hy)]
      exact hr
    · rw [if_neg hmem]
      show (fsAux (fsAux [] u ++ [a]) []).Pairwise _
      unfold fsAux
      rw [List.pairwise_append]
      have hanotu : a ∉ u := fun hh => hmem ((mem_fsAux u [] a).mpr (Or.inr hh))
      refine ⟨?_, List.pairwise_singleton _ _, ?_⟩
      · refine ih.imp_of_mem ?_
        intro x y hx hy hr
        rw [firstIdx_append_of_mem [a] (hsub x hx), firstIdx_append_of_mem [a] (hsub y hy)]
        exact hr
      · intro x hx b hb
        have hb2 : b = a := by simpa using hb
        subst hb2
        rw [firstIdx_append_of_mem [b] (hsub x hx), firstIdx_append_of_not_mem [b] hanotu]
        have h1 : firstIdx u x < u.length := firstIdx_lt_length (hsub x hx)
        have h2 : firstIdx [b] b = 0 := by simp [firstIdx]
        omega

lemma build_foldl_enumFrom (dates : List Line) :
    ∀ (n : Nat) (init : List (Line × Nat)), dates.Nodup →
      (∀ d ∈ dates, d ∉ dKeys init) →
      (List.enumFrom n dates).foldl (fun m p => dSet m p.2 p.1) init =
        init ++ (List.enumFrom n dates).map (fun p => (p.2, p.1)) := by
  induction dates with
  | nil =>
    intro n init _ _
    simp
  | cons d t ih =>
    intro n init hnodup hdisj
    rw [List.enumFrom_cons, List.foldl_cons, List.map_cons]
    have hset : dSet init d n = init ++ [(d, n)] :=
      dSet_of_not_mem n (hdisj d (List.mem_cons_self _ _))
    show (List.enumFrom (n + 1) t).foldl (fun m p => dSet m p.2 p.1) (dSet init d n) = _
    rw [hset, ih (n + 1) (init ++ [(d, n)]) (List.nodup_cons.mp hnodup).2 ?_]
    · rw [List.append_assoc]
      rfl
    · intro x hx
      have hx1 : x ≠ d := by
        intro hh
        rw [hh] at hx
        exact (List.nodup_cons.mp hnodup).1 hx
      have hx2 : x ∉ dKeys init := hdisj x (List.mem_cons_of_mem _ hx)
      intro hcon
      rw [dKeys, List.map_append] at hcon
      rcases List.mem_append.mp hcon with hcon | hcon
      · exact hx2 hcon
      · exact hx1 (by simpa using hcon)

lemma build_eq (dates : List Line) (h : dates.Nodup) :
    build_date_to_index dates = dates.enum.map (fun p => (p.2, p.1)) := by
  unfold build_date_to_index
  have := build_foldl_enumFrom dates 0 [] h (by simp [dKeys])
  simpa [List.enum] using this

lemma dGet_enumMap (dates : List Line) (d : Line) :
    ∀ n : Nat, dates.Nodup →
      dGet ((List.enumFrom n dates).map (fun p => (p.2, p.1))) d =
        if d ∈ dates then some (n + firstIdx dates d) else none := by
  induction dates with
  | nil =>
    intro n _
    simp [dGet]
  | cons a t ih =>
    intro n hnodup
    rw [List.enumFrom_cons, List.map_cons]
    show (if a = d then some n else dGet _ d) = _
    by_cases ha : a = d
    · subst ha
      simp [firstIdx]
    · rw [if_neg ha, ih (n + 1) (List.nodup_cons.mp hnodup).2]
      by_cases hd : d ∈ t
      · have hd2 : d ∈ a :: t := List.mem_cons_of_mem _ hd
        rw [if_pos hd, if_pos hd2]
        have hfi : firstIdx (a :: t) d = firstIdx t d + 1 := by
          show (if a = d then 0 else firstIdx t d + 1) = _
          rw [if_neg ha]
        rw [hfi]
        congr 1
        omega
      · have hd2 : d ∉ a :: t := by
          intro hcon
          rcases List.mem_cons.mp hcon with hh | hh
          · exact ha hh.symm
          · exact hd hh
        rw [if_neg hd, if_neg hd2]

lemma dGet_build (dates : List Line) (d : Line) (h : dates.Nodup) :
    dGet (build_date_to_index dates) d =
      if d ∈ dates then some (firstIdx dates d) else none := by
  rw [build_eq dates h]
  have := dGet_enumMap dates d 0 h
  simpa [List.enum] using this

lemma firstIdx_get (dates : List Line) (h : dates.Nodup) :
    ∀ (i : Nat) (hi : i < dates.length), firstIdx dates (dates.get ⟨i, hi⟩) = i := by
  induction dates with
  | nil =>
    intro i hi
    simp at hi
  | cons a t ih =>
    intro i hi
    cases i with
    | zero => simp [firstIdx]
    | succ j =>
      have hj : j < t.length := by simpa using hi
      have hmem : t.get ⟨j, hj⟩ ∈ t := t.get_mem _ _
      have ha : ¬ a = t.get ⟨j, hj⟩ := by
        intro hh
        exact (List.nodup_cons.mp h).1 (hh ▸ hmem)
      show (if a = t.get ⟨j, hj⟩ then 0 else firstIdx t (t.get ⟨j, hj⟩) + 1) = j + 1
      rw [if_neg ha, ih (List.nodup_cons.mp h).2 j hj]

lemma get_firstIdx (dates : List Line) :
    ∀ d ∈ dates, dates[firstIdx dates d]? = some d := by
  induction dates with
  | nil =>
    intro d hd
    simp at hd
  | cons a t ih =>
    intro d hd
    by_cases ha : a = d
    · have hfi : firstIdx (a :: t) d = 0 := by
        show (if a = d then 0 else firstIdx t d + 1) = 0
        rw [if_pos ha]
      rw [hfi]
      simpa using ha
    · have hdt : d ∈ t := by
        rcases List.mem_cons.mp hd with hh | hh
        · exact absurd hh.symm ha
        · exact hh
      have hfi : firstIdx (a :: t) d = firstIdx t d + 1 := by
        show (if a = d then 0 else firstIdx t d + 1) = _
        rw [if_neg ha]
      rw [hfi, List.getElem?_cons_succ]
      exact ih d hdt

/-! ### Bridges between the loop and the spec-side predicates -/

lemma specCountsAsRead_eq (parse : Line → Option ℚ) (line : Line) :
    specCountsAsRead line = isReadOutcome (classifyLine parse line) := by
  unfold specCountsAsRead classifyLine isHeaderFields
  by_cases h1 : pyStrip line = []
  · simp [h1, isReadOutcome]
  · by_cases h2 : (pySplitOn (pyStrip line)).length < 3
    · have h2b : ¬ 3 ≤ (pySplitOn (pyStrip line)).length := by omega
      simp [h1, h2, h2b, isReadOutcome]
    · have h2b : 3 ≤ (pySplitOn (pyStrip line)).length := by omega
      by_cases h3 : pyLower (fieldAt (pySplitOn (pyStrip line)) 0) = hdrDate ∧
          pyLower (fieldAt (pySplitOn (pyStrip line)) 1) = hdrTicker
      · simp [h1, h2, h2b, h3, isReadOutcome]
      · cases hp : parse (fieldAt (pySplitOn (pyStrip line)) 2) with
        | none => simp [h1, h2, h2b, h3, hp, isReadOutcome]
        | some p =>
          by_cases hple : p ≤ 0 <;> simp [h1, h2, h2b, h3, hp, hple, isReadOutcome]

lemma classify_malformed {parse : Line → Option ℚ} {line : Line}
    (h1 : pyStrip line ≠ []) (h2 : (pySplitOn (pyStrip line)).length < 3) :
    classifyLine parse line = .malformed (pyStrip line) := by
  unfold classifyLine
  simp [h1, h2]

lemma classify_header {parse : Line → Option ℚ} {line : Line}
    (h1 : pyStrip line ≠ []) (h2 : 3 ≤ (pySplitOn (pyStrip line)).length)
    (h3 : pyLower (fieldAt (pySplitOn (pyStrip line)) 0) = hdrDate ∧
      pyLower (fieldAt (pySplitOn (pyStrip line)) 1) = hdrTicker) :
    classifyLine parse line = .header := by
  unfold classifyLine
  have h2b : ¬ (pySplitOn (pyStrip line)).length < 3 := by omega
  simp [h1, h2b, h3]

lemma classify_badPrice {parse : Line → Option ℚ} {line : Line}
    (h1 : pyStrip line ≠ []) (h2 : 3 ≤ (pySplitOn (pyStrip line)).length)
    (h3 : ¬ (pyLower (fieldAt (pySplitOn (pyStrip line)) 0) = hdrDate ∧
      pyLower (fieldAt (pySplitOn (pyStrip line)) 1) = hdrTicker))
    (h4 : parse (fieldAt (pySplitOn (pyStrip line)) 2) = none ∨
      ∃ p, parse (fieldAt (pySplitOn (pyStrip line)) 2) = some p ∧ p ≤ 0) :
    classifyLine parse line = .badPrice := by
  unfold classifyLine
  have h2b : ¬ (pySplitOn (pyStrip line)).length < 3 := by omega
  rcases h4 with h4 | ⟨p, h4, h5⟩ <;> simp [h1, h2b, h3, h4]
  exact h5

/-! ### The shape of the ranking output -/

/-- The order of the ranked output in the spec's words: momentum
descending, exact ties broken by ticker ascending. -/
def momRankLe (a b : Line × ℚ) : Prop :=
  b.2 < a.2 ∨ (a.2 = b.2 ∧ (a.1 = b.1 ∨ clLtB a.1 b.1 = true))

lemma momLeB_iff (a b : Line × ℚ) : momLeB a b = true ↔ momRankLe a b := by
  unfold momLeB momRankLe momLtB
  rw [Bool.not_eq_true']
  by_cases h : b.2 = a.2
  · rw [if_pos h]
    constructor
    · intro hlt
      refine Or.inr ⟨h.symm, ?_⟩
      by_cases hcl : clLtB a.1 b.1 = true
      · exact Or.inr hcl
      · exact Or.inl (clLtB_conn _ _ (bool_not_true hcl) hlt)
    · rintro (hlt | ⟨heq, hcl | hcl⟩)
      · exact absurd (h ▸ hlt) (lt_irrefl _)
      · rw [← hcl]
        exact clLtB_irrefl _
      · exact clLtB_asymm _ _ hcl
  · rw [if_neg h]
    rw [decide_eq_false_iff_not, not_lt]
    constructor
    · intro hle
      exact Or.inl (lt_of_le_of_ne hle (fun hh => h hh))
    · rintro (hlt | ⟨heq, -⟩)
      · exact le_of_lt hlt
      · exact absurd heq.symm h

lemma compute_eq_of_idx (rows : List Row) (tgt : Line) (dates : List Line)
    (d2i : List (Line × Nat)) (w idx : Nat) (ref : Line)
    (hidx : dGet d2i tgt = some idx) (hw : ¬ idx < w)
    (href : dates[idx - w]? = some ref) :
    compute_top5_momentum_for_date rows tgt dates d2i w =
      some (((momentumCandidates rows tgt ref).mergeSort momLeB).take 5) := by
  unfold compute_top5_momentum_for_date
  rw [hidx]
  simp only [if_neg hw, href, Option.getD_some]

lemma mem_output_sub {rows : List Row} {tgt ref : Line} {e : Line × ℚ}
    (h : e ∈ ((momentumCandidates rows tgt ref).mergeSort momLeB).take 5) :
    e ∈ momentumCandidates rows tgt ref :=
  (List.mergeSort_perm _ momLeB).mem_iff.mp (List.Sublist.mem h (List.take_sublist 5 _))

lemma compute_none (rows : List Row) (tgt : Line) (dates : List Line)
    (d2i : List (Line × Nat)) (w : Nat) (hidx : dGet d2i tgt = none) :
    compute_top5_momentum_for_date rows tgt dates d2i w = none := by
  unfold compute_top5_momentum_for_date
  rw [hidx]

lemma compute_insufficient (rows : List Row) (tgt : Line) (dates : List Line)
    (d2i : List (Line × Nat)) (w idx : Nat) (hidx : dGet d2i tgt = some idx)
    (hw : idx < w) :
    compute_top5_momentum_for_date rows tgt dates d2i w = some [] := by
  unfold compute_top5_momentum_for_date
  rw [hidx]
  simp [hw]

lemma compute_else (rows : List Row) (tgt : Line) (dates : List Line)
    (d2i : List (Line × Nat)) (w idx : Nat) (hidx : dGet d2i tgt = some idx)
    (hw : ¬ idx < w) :
    compute_top5_momentum_for_date rows tgt dates d2i w =
      some (((momentumCandidates rows tgt
        ((dates[idx - w]?).getD [])).mergeSort momLeB).take 5) := by
  unfold compute_top5_momentum_for_date
  rw [hidx]
  simp [hw]

/-! ### The claims -/

/-- C1: for every raw input (and every price parser), the canonical table
emitted by `clean_and_save_prices` has pairwise-distinct `(date, ticker)`
keys (at most one row per key), is sorted strictly ascending by
`(date, ticker)` under Python tuple comparison, and every kept price is
strictly positive — including adversarial inputs with duplicates and
invalid rows. -/
theorem c1_canonical_table_invariants (parse : Line → Option ℚ) (lines : List Line) :
    ((canonicalTable (runClean parse lines)).map Prod.fst).Nodup ∧
    (canonicalTable (runClean parse lines)).Pairwise (fun a b => keyLtB a.1 b.1 = true) ∧
    (canonicalTable (runClean parse lines)).all (fun e => decide (0 < e.2)) = true :=
  ⟨canonicalTable_nodup_keys parse lines, canonicalTable_sorted parse lines, by
    rw [List.all_eq_true]
    intro e he
    simpa using canonicalTable_pos parse lines e he⟩

/-- C2: for every raw input, the surviving value of every `(date, ticker)`
key is the price of its last successfully parsed row (last-write-wins);
`num_duplicate_pairs` equals the number of distinct keys with at least two
surviving rows; `duplicate_rows_dropped` equals the total surviving
occurrences over those keys minus their number; and the audit log carries
the `Resolved ... pairs (... dropped)` message exactly once when any row
was dropped and never otherwise. -/
theorem c2_last_write_wins_and_duplicate_counts (parse : Line → Option ℚ)
    (lines : List Line) :
    (∀ k, dGet (runClean parse lines).lastSeen k = lastValidPrice parse lines k) ∧
    numDuplicatePairs (runClean parse lines) = (specDuplicatedKeys parse lines).length ∧
    duplicateRowsDropped (runClean parse lines) =
      specTotalDupOccs parse lines - (specDuplicatedKeys parse lines).length ∧
    (finalAuditLog (runClean parse lines)).countP
        (fun e => decide (e = AuditEntry.resolvedDuplicates
          (numDuplicatePairs (runClean parse lines))
          (duplicateRowsDropped (runClean parse lines)))) =
      if duplicateRowsDropped (runClean parse lines) = 0 then 0 else 1 := by
  refine ⟨runClean_lastSeen_dGet parse lines, numDup_eq_spec parse lines, ?_,
    finalAudit_resolved_count parse lines⟩
  unfold duplicateRowsDropped
  rw [totalDup_eq_spec, numDup_eq_spec]

/-- C3: `compute_top5_momentum_for_date` returns the NOT_FOUND sentinel
(`none`) exactly when the target date is absent from the date-to-index
map, returns the INSUFFICIENT sentinel (`some []`) whenever the target's
index is strictly below the window, and the two sentinels are distinct
values. -/
theorem c3_sentinels (rows : List Row) (target : Line) (dates : List Line)
    (d2i : List (Line × Nat)) (window : Nat) :
    (compute_top5_momentum_for_date rows target dates d2i window = none ↔
      dGet d2i target = none) ∧
    (∀ idx, dGet d2i target = some idx → idx < window →
      compute_top5_momentum_for_date rows target dates d2i window = some []) ∧
    (none : Option (List (Line × ℚ))) ≠ some [] := by
  refine ⟨?_, ?_, by simp⟩
  · constructor
    · intro h
      cases hidx : dGet d2i target with
      | none => rfl
      | some idx =>
        by_cases hw : idx < window
        · rw [compute_insufficient rows target dates d2i window idx hidx hw] at h
          exact absurd h (by simp)
        · rw [compute_else rows target dates d2i window idx hidx hw] at h
          exact absurd h (by simp)
    · intro h
      exact compute_none rows target dates d2i window h
  · intro idx hidx hw
    exact compute_insufficient rows target dates d2i window idx hidx hw

/-- C3 witness: with calendar `["a", "b"]` and window 5, the unknown date
`"x"` yields `none` and the known early date `"b"` (index 1 < 5) yields
the empty ranking. -/
theorem c3_sentinels_witness :
    compute_top5_momentum_for_date [] ['x'] [['a'], ['b']]
      [(['a'], 0), (['b'], 1)] 5 = none ∧
    compute_top5_momentum_for_date [] ['b'] [['a'], ['b']]
      [(['a'], 0), (['b'], 1)] 5 = some [] :=
  ⟨(c3_sentinels [] ['x'] [['a'], ['b']] [(['a'], 0), (['b'], 1)] 5).1.mpr (by decide),
   (c3_sentinels [] ['b'] [['a'], ['b']] [(['a'], 0), (['b'], 1)] 5).2.1 1
     (by decide) (by decide)⟩

/-- C8: when the raw input file is missing, `clean_and_save_prices` fails
with the source-not-found error carrying the attempted location, and no
output is produced (the result is the error value, never an `ok` payload
holding a written table). -/
theorem c8_missing_input_fails_without_output (rawPath : Line)
    (parse : Line → Option ℚ) :
    cleanAndSavePrices rawPath none parse =
      .error (fileNotFoundMsg ++ rawPath) := rfl

/-- C6 counterexample: on the single malformed line `"abc"` (non-blank,
not a header, but only one field), the claim's reading predicts one
"read" row, yet the code counts zero — `rows_read` is incremented only
after the column-count check passes. -/
theorem c6_rows_read_counterexample :
    (runClean pyFloat [['a', 'b', 'c']]).rowsRead = 0 ∧
    List.countP claimCountsAsRead [['a', 'b', 'c']] = 1 ∧
    (runClean pyFloat [['a', 'b', 'c']]).rowsRead ≠
      List.countP claimCountsAsRead [['a', 'b', 'c']] := by
  refine ⟨by decide, by decide, by decide⟩

/-- C6 (amended): for every raw input and every parser, the "read" rows
counter equals the number of non-blank, non-header lines *with at least
3 comma-separated fields*; lines with fewer fields are not counted as
read, whatever their other content. -/
theorem c6_rows_read_amended (parse : Line → Option ℚ) (lines : List Line) :
    (runClean parse lines).rowsRead = lines.countP specCountsAsRead := by
  rw [runClean_rowsRead]
  have hfun : specCountsAsRead = fun l => isReadOutcome (classifyLine parse l) :=
    funext (specCountsAsRead_eq parse)
  rw [hfun]

/-- C7 counterexample: the header-like line `"date,ticker"` has only two
fields, so instead of being silently skipped it is treated as malformed:
the invalid counter increments and an audit entry is appended,
contradicting the claim that such a line increments no counter and adds
no audit entry regardless of its field count. -/
theorem c7_header_counterexample :
    (stepLine pyFloat initState
      ['d', 'a', 't', 'e', ',', 't', 'i', 'c', 'k', 'e', 'r']).invalid = 1 ∧
    (stepLine pyFloat initState
      ['d', 'a', 't', 'e', ',', 't', 'i', 'c', 'k', 'e', 'r']).auditLog ≠ [] ∧
    initState.invalid = 0 := by
  refine ⟨by decide, by decide, rfl⟩

/-- C7 (amended): a line with at least 3 fields whose first two stripped
fields case-insensitively equal `date`/`ticker` is silently skipped: the
loop state — every counter, both dicts and the audit log — is unchanged.
(Header-like lines with fewer than 3 fields are instead malformed, per
the C7 counterexample.) -/
theorem c7_header_amended (parse : Line → Option ℚ) (st : CleanState) (line : Line)
    (h1 : pyStrip line ≠ []) (h2 : 3 ≤ (pySplitOn (pyStrip line)).length)
    (h3 : pyLower (fieldAt (pySplitOn (pyStrip line)) 0) = hdrDate ∧
      pyLower (fieldAt (pySplitOn (pyStrip line)) 1) = hdrTicker) :
    stepLine parse st line = st := by
  simp [stepLine, classify_header h1 h2 h3]

/-- C7 witness: the actual header row of the data file is skipped without
touching the state. -/
theorem c7_header_amended_witness :
    stepLine pyFloat initState "date,ticker,close_price".data = initState :=
  c7_header_amended pyFloat initState "date,ticker,close_price".data
    (by decide) (by decide) (by decide)

/-- C4: for a query on a known date with index at least the window,
`(t, m)` is a ranking candidate exactly when ticker `t` has a price on
the target date and a strictly positive price on the reference date, with
`m = price(target)/price(ref) - 1`; and a ticker missing the reference
price, or whose reference price is non-positive, never appears in the
ranked output even with a valid target-date price. -/
theorem c4_candidate_characterization (rows : List Row) (target : Line)
    (dates : List Line) (d2i : List (Line × Nat)) (window idx : Nat) (refDate : Line)
    (hidx : dGet d2i target = some idx) (hw : window ≤ idx)
    (href : dates[idx - window]? = some refDate) :
    (∀ t m, ((t, m) ∈ momentumCandidates rows target refDate ↔
      ∃ pT pR, lastPriceIn rows t target = some pT ∧
        lastPriceIn rows t refDate = some pR ∧ 0 < pR ∧ m = pT / pR - 1)) ∧
    (∀ t, (lastPriceIn rows t refDate = none ∨
        (∃ pR, lastPriceIn rows t refDate = some pR ∧ pR ≤ 0)) →
      ∀ m l, compute_top5_momentum_for_date rows target dates d2i window = some l →
        (t, m) ∉ l) := by
  have hw2 : ¬ idx < window := by omega
  constructor
  · intro t m
    exact mem_candidates_iff rows target refDate t m
  · rintro t hbad m l hl hmem
    rw [compute_eq_of_idx rows target dates d2i window idx refDate hidx hw2 href] at hl
    have hl2 : l = ((momentumCandidates rows target refDate).mergeSort momLeB).take 5 :=
      (Option.some_inj.mp hl).symm
    subst hl2
    obtain ⟨pT, pR, h1, h2, h3, h4⟩ :=
      (mem_candidates_iff rows target refDate t m).mp (mem_output_sub hmem)
    rcases hbad with hb | ⟨pR2, hb, hb2⟩
    · rw [hb] at h2
      exact absurd h2 (by simp)
    · rw [hb] at h2
      have hpr : pR2 = pR := Option.some_inj.mp h2
      subst hpr
      exact absurd h3 (not_lt.mpr hb2)

/-- C4 witness: one ticker with prices on both dates of a window-1 query
instantiates the characterization with all hypotheses discharged. -/
theorem c4_candidate_characterization_witness :
    (∀ t m, ((t, m) ∈ momentumCandidates
        [(['a'], ['T'], (100 : ℚ)), (['b'], ['T'], 120)] ['b'] ['a'] ↔
      ∃ pT pR, lastPriceIn [(['a'], ['T'], (100 : ℚ)), (['b'], ['T'], 120)] t ['b'] = some pT ∧
        lastPriceIn [(['a'], ['T'], (100 : ℚ)), (['b'], ['T'], 120)] t ['a'] = some pR ∧
        0 < pR ∧ m = pT / pR - 1)) ∧
    (∀ t, (lastPriceIn [(['a'], ['T'], (100 : ℚ)), (['b'], ['T'], 120)] t ['a'] = none ∨
        (∃ pR, lastPriceIn [(['a'], ['T'], (100 : ℚ)), (['b'], ['T'], 120)] t ['a'] = some pR ∧
          pR ≤ 0)) →
      ∀ m l, compute_top5_momentum_for_date
          [(['a'], ['T'], (100 : ℚ)), (['b'], ['T'], 120)] ['b'] [['a'], ['b']]
          [(['a'], 0), (['b'], 1)] 1 = some l →
        (t, m) ∉ l) :=
  c4_candidate_characterization [(['a'], ['T'], (100 : ℚ)), (['b'], ['T'], 120)]
    ['b'] [['a'], ['b']] [(['a'], 0), (['b'], 1)] 1 1 ['a']
    (by decide) (by decide) (by decide)

/-- C5: whenever a query on a known, deep-enough date succeeds, the
returned ranking is sorted by momentum descending with exact ties broken
by ticker ascending, and its length is the minimum of 5 and the number of
qualifying tickers (at most 5, fewer only when fewer qualify); moreover
the whole result is unchanged under any permutation of the rows of a
table with unique `(date, ticker)` keys. -/
theorem c5_ranking_sorted_top5_deterministic (rows : List Row) (target : Line)
    (dates : List Line) (d2i : List (Line × Nat)) (window : Nat) :
    (∀ idx refDate, dGet d2i target = some idx → window ≤ idx →
      dates[idx - window]? = some refDate →
      ∃ l, compute_top5_momentum_for_date rows target dates d2i window = some l ∧
        l.Pairwise momRankLe ∧
        l.length = min 5 (momentumCandidates rows target refDate).length) ∧
    (∀ rows2, rowKeysNodup rows → rows.Perm rows2 →
      compute_top5_momentum_for_date rows2 target dates d2i window =
        compute_top5_momentum_for_date rows target dates d2i window) := by
  constructor
  · intro idx refDate hidx hw href
    have hw2 : ¬ idx < window := by omega
    refine ⟨((momentumCandidates rows target refDate).mergeSort momLeB).take 5,
      compute_eq_of_idx rows target dates d2i window idx refDate hidx hw2 href, ?_, ?_⟩
    · have hs : ((momentumCandidates rows target refDate).mergeSort momLeB).Pairwise
          (fun a b => momLeB a b = true) :=
        List.sorted_mergeSort momLeB_trans momLeB_total _
      exact (List.Pairwise.sublist (List.take_sublist 5 _) hs).imp
        (fun h => (momLeB_iff _ _).mp h)
    · rw [List.length_take, (List.mergeSort_perm _ momLeB).length_eq]
  · intro rows2 hn hperm
    cases hidx : dGet d2i target with
    | none =>
      rw [compute_none rows target dates d2i window hidx,
        compute_none rows2 target dates d2i window hidx]
    | some idx =>
      by_cases hw : idx < window
      · rw [compute_insufficient rows target dates d2i window idx hidx hw,
          compute_insufficient rows2 target dates d2i window idx hidx hw]
      · rw [compute_else rows target dates d2i window idx hidx hw,
          compute_else rows2 target dates d2i window idx hidx hw,
          mergeSort_mom_eq (candidates_perm hn hperm target ((dates[idx - window]?).getD []))]

/-- C5 witness: a two-row table and its transposition give literally the
same query result, with the nodup-keys and permutation hypotheses
discharged on concrete data; the sortedness part is instantiated on the
same query. -/
theorem c5_ranking_witness :
    (∃ l, compute_top5_momentum_for_date
        [(['a'], ['T'], (100 : ℚ)), (['b'], ['T'], 120)] ['b'] [['a'], ['b']]
        [(['a'], 0), (['b'], 1)] 1 = some l ∧
      l.Pairwise momRankLe ∧
      l.length = min 5 (momentumCandidates
        [(['a'], ['T'], (100 : ℚ)), (['b'], ['T'], 120)] ['b'] ['a']).length) ∧
    compute_top5_momentum_for_date
        [(['b'], ['T'], (120 : ℚ)), (['a'], ['T'], 100)] ['b'] [['a'], ['b']]
        [(['a'], 0), (['b'], 1)] 1 =
      compute_top5_momentum_for_date
        [(['a'], ['T'], (100 : ℚ)), (['b'], ['T'], 120)] ['b'] [['a'], ['b']]
        [(['a'], 0), (['b'], 1)] 1 :=
  ⟨(c5_ranking_sorted_top5_deterministic
      [(['a'], ['T'], (100 : ℚ)), (['b'], ['T'], 120)] ['b'] [['a'], ['b']]
      [(['a'], 0), (['b'], 1)] 1).1 1 ['a'] (by decide) (by decide) (by decide),
   (c5_ranking_sorted_top5_deterministic
      [(['a'], ['T'], (100 : ℚ)), (['b'], ['T'], 120)] ['b'] [['a'], ['b']]
      [(['a'], 0), (['b'], 1)] 1).2
     [(['b'], ['T'], (120 : ℚ)), (['a'], ['T'], 100)]
     (by unfold rowKeysNodup; decide) (List.Perm.swap _ _ _)⟩

/-- C9: the calendar built by `get_trading_dates_ordered` lists each
distinct date of the table exactly once, in first-seen order of a single
walk over the stored row order, and `build_date_to_index` is inverse to
positional lookup: position `i` maps to index `i`, and every listed date
maps to an index at which it sits. -/
theorem c9_calendar_bijection (rows : List Row) :
    (get_trading_dates_ordered rows).Nodup ∧
    (∀ d, d ∈ get_trading_dates_ordered rows ↔ d ∈ rows.map Prod.fst) ∧
    (get_trading_dates_ordered rows).Pairwise
      (fun a b => firstIdx (rows.map Prod.fst) a < firstIdx (rows.map Prod.fst) b) ∧
    (∀ (i : Nat) (hi : i < (get_trading_dates_ordered rows).length),
      dGet (build_date_to_index (get_trading_dates_ordered rows))
        ((get_trading_dates_ordered rows).get ⟨i, hi⟩) = some i) ∧
    (∀ d ∈ get_trading_dates_ordered rows,
      dGet (build_date_to_index (get_trading_dates_ordered rows)) d =
        some (firstIdx (get_trading_dates_ordered rows) d) ∧
      (get_trading_dates_ordered rows)[firstIdx
        (get_trading_dates_ordered rows) d]? = some d) := by
  have hnodup : (get_trading_dates_ordered rows).Nodup := by
    rw [gtdo_eq]
    exact fsAux_nodup _ [] (by simp)
  refine ⟨hnodup, ?_, ?_, ?_, ?_⟩
  · intro d
    rw [gtdo_eq, mem_fsAux]
    simp
  · rw [gtdo_eq]
    exact fsAux_pairwise_firstIdx _
  · intro i hi
    rw [dGet_build _ _ hnodup]
    have hmem : (get_trading_dates_ordered rows).get ⟨i, hi⟩ ∈
        get_trading_dates_ordered rows := List.get_mem _ _ _
    rw [if_pos hmem, firstIdx_get _ hnodup i hi]
  · intro d hd
    refine ⟨?_, get_firstIdx _ d hd⟩
    rw [dGet_build _ _ hnodup, if_pos hd]

/-- C9 witness: on a three-row table over two dates, position 1 maps to
index 1 and the date `"b"` round-trips through the index map. -/
theorem c9_calendar_bijection_witness :
    dGet (build_date_to_index (get_trading_dates_ordered
        [(['a'], ['T'], (1 : ℚ)), (['b'], ['T'], 2), (['a'], ['U'], 3)]))
      ((get_trading_dates_ordered
        [(['a'], ['T'], (1 : ℚ)), (['b'], ['T'], 2), (['a'], ['U'], 3)]).get
        ⟨1, by decide⟩) = some 1 ∧
    dGet (build_date_to_index (get_trading_dates_ordered
        [(['a'], ['T'], (1 : ℚ)), (['b'], ['T'], 2), (['a'], ['U'], 3)])) ['b'] =
      some (firstIdx (get_trading_dates_ordered
        [(['a'], ['T'], (1 : ℚ)), (['b'], ['T'], 2), (['a'], ['U'], 3)]) ['b']) ∧
    (get_trading_dates_ordered
        [(['a'], ['T'], (1 : ℚ)), (['b'], ['T'], 2), (['a'], ['U'], 3)])[firstIdx
      (get_trading_dates_ordered
        [(['a'], ['T'], (1 : ℚ)), (['b'], ['T'], 2), (['a'], ['U'], 3)]) ['b']]? =
      some ['b'] :=
  ⟨(c9_calendar_bijection
      [(['a'], ['T'], (1 : ℚ)), (['b'], ['T'], 2), (['a'], ['U'], 3)]).2.2.2.1 1
      (by decide),
   ((c9_calendar_bijection
      [(['a'], ['T'], (1 : ℚ)), (['b'], ['T'], 2), (['a'], ['U'], 3)]).2.2.2.2 ['b']
      (by decide)).1,
   ((c9_calendar_bijection
      [(['a'], ['T'], (1 : ℚ)), (['b'], ['T'], 2), (['a'], ['U'], 3)]).2.2.2.2 ['b']
      (by decide)).2⟩

/-- C10: a non-blank line with fewer than 3 fields increments the same
`empty_or_invalid_price` counter as a row whose price is missing,
unparsable or non-positive, and it alone also appends its own
skipped-malformed audit entry at once; the final `Removed N` audit entry
reports that shared counter (present exactly when it is nonzero), so
malformed-column lines are aggregated with price failures rather than
reported separately. -/
theorem c10_invalid_counter_aggregation (parse : Line → Option ℚ) :
    (∀ (st : CleanState) (line : Line), pyStrip line ≠ [] →
      (pySplitOn (pyStrip line)).length < 3 →
      stepLine parse st line =
        { st with
            invalid := st.invalid + 1,
            auditLog := st.auditLog ++
              [AuditEntry.skippedMalformed ((pyStrip line).take 80)] }) ∧
    (∀ (st : CleanState) (line : Line), pyStrip line ≠ [] →
      3 ≤ (pySplitOn (pyStrip line)).length →
      ¬ (pyLower (fieldAt (pySplitOn (pyStrip line)) 0) = hdrDate ∧
        pyLower (fieldAt (pySplitOn (pyStrip line)) 1) = hdrTicker) →
      (parse (fieldAt (pySplitOn (pyStrip line)) 2) = none ∨
        ∃ p, parse (fieldAt (pySplitOn (pyStrip line)) 2) = some p ∧ p ≤ 0) →
      stepLine parse st line =
        { st with
            rowsRead := st.rowsRead + 1,
            invalid := st.invalid + 1 }) ∧
    (∀ lines, (runClean parse lines).invalid =
        lines.countP (specCountsAsInvalid parse) ∧
      ((runClean parse lines).invalid ≠ 0 →
        AuditEntry.removedInvalid (runClean parse lines).invalid ∈
          finalAuditLog (runClean parse lines))) := by
  refine ⟨?_, ?_, ?_⟩
  · intro st line h1 h2
    simp [stepLine, classify_malformed h1 h2]
  · intro st line h1 h2 h3 h4
    simp [stepLine, classify_badPrice h1 h2 h3 h4]
  · intro lines
    refine ⟨runClean_invalid parse lines, fun hinv => ?_⟩
    unfold finalAuditLog
    simp [hinv]

/-- C10 witness: the malformed line `"abc"` and the bad-price line
`"d,T,xyz"` both feed the shared counter, and the run over `["abc"]`
carries the aggregated `Removed 1` entry in its final log. -/
theorem c10_invalid_counter_aggregation_witness :
    stepLine pyFloat initState ['a', 'b', 'c'] =
      { initState with
          invalid := initState.invalid + 1,
          auditLog := initState.auditLog ++
            [AuditEntry.skippedMalformed ((pyStrip ['a', 'b', 'c']).take 80)] } ∧
    stepLine pyFloat initState "d,T,xyz".data =
      { initState with
          rowsRead := initState.rowsRead + 1,
          invalid := initState.invalid + 1 } ∧
    AuditEntry.removedInvalid (runClean pyFloat [['a', 'b', 'c']]).invalid ∈
      finalAuditLog (runClean pyFloat [['a', 'b', 'c']]) :=
  ⟨(c10_invalid_counter_aggregation pyFloat).1 initState ['a', 'b', 'c']
      (by decide) (by decide),
   (c10_invalid_counter_aggregation pyFloat).2.1 initState "d,T,xyz".data
      (by decide) (by decide) (by decide) (Or.inl (by decide)),
   ((c10_invalid_counter_aggregation pyFloat).2.2 [['a', 'b', 'c']]).2 (by decide)⟩
